import Mathlib

/-!
# Verification of `binarysearchfile.py`

A shallow embedding of the `binarysearchfile` repository (module
`binarysearchfile.py`): a self-describing binary file format with a sorted,
binary-searchable variant (`BinarySearchFile`) and a sequential variant
(`BinarySequentialFile`).

Files are modeled as `List Nat` (the bytes, each `< 256` for well-formed
files), Python `str` values as lists of code points, Python `int` as `Int`.
All recursion is structural (with an explicit fuel argument where the Python
loop is unbounded), so every definition evaluates inside the kernel.
-/

namespace BSF

/-! ## Byte primitives: `int.from_bytes` / `int.to_bytes` (big-endian) -/

/-- Python `int.from_bytes(bs)` (big-endian, unsigned). -/
def beNat (bs : List Nat) : Nat := bs.foldl (fun a b => a * 256 + b) 0

/-- The `s`-byte big-endian digit expansion of `n` (the bytes that
`n.to_bytes(s)` produces when `n < 256 ^ s`). -/
def beBytes : Nat → Nat → List Nat
  | _, 0 => []
  | n, s + 1 => beBytes (n / 256) s ++ [n % 256]

/-- Python `n.to_bytes(s)` for a non-negative `n`: `OverflowError`
(modeled as `none`) unless `n < 256 ^ s`. -/
def toBytesBE (n s : Nat) : Option (List Nat) :=
  if n < 256 ^ s then some (beBytes n s) else none

/-! ## Python `int.bit_length` and `_byte_length` -/

/-- The halving loop of the bit length; `fuel ≥ n` makes it exact. -/
def bitLengthAux : Nat → Nat → Nat
  | 0, _ => 0
  | fuel + 1, n => if n = 0 then 0 else bitLengthAux fuel (n / 2) + 1

/-- Python `v.bit_length()` for a non-negative value (bit length of `n`). -/
def bitLength (n : Nat) : Nat := bitLengthAux n n

/-- `_byte_length(v) = (v.bit_length() + 7) // 8` (source line 58). -/
def pyByteLength (v : Nat) : Nat := (bitLength v + 7) / 8

/-! ## Trailing-space stripping (`bytes.rstrip(b' ')`) -/

/-- Python `bs.rstrip(b' ')`: remove trailing space (byte 32) characters. -/
def rstripSpaces (bs : List Nat) : List Nat :=
  (bs.reverse.dropWhile (fun b => b == 32)).reverse

/-! ## Values: Python `str` (as code points) and `int` -/

/-- A Python value stored in a record field: a text value (list of unicode
code points) or an integer. -/
inductive Value where
  | text (cps : List Nat)
  | int (v : Int)
  deriving DecidableEq, Repr

/-- Python `<` on lists of code points (lexicographic `str` comparison). -/
def cpsLt : List Nat → List Nat → Bool
  | [], [] => false
  | [], _ :: _ => true
  | _ :: _, [] => false
  | a :: as, b :: bs => if a = b then cpsLt as bs else decide (a < b)

/-- Python `<` on two record-field values.  Python raises `TypeError` when
comparing `str` with `int`; such comparisons never occur for the well-typed
records the theorems quantify over, and the model extends the order by
putting every `int` below every `text`. -/
def Value.ltb : Value → Value → Bool
  | .int a, .int b => decide (a < b)
  | .text a, .text b => cpsLt a b
  | .int _, .text _ => true
  | .text _, .int _ => false

/-! ## Records and Python tuple comparison -/

/-- A record: one Python value per schema field. -/
abbrev Rec := List Value

/-- Python `<` on tuples of values (lexicographic, element equality first,
shorter prefix smaller). -/
def recLt : Rec → Rec → Bool
  | [], [] => false
  | [], _ :: _ => true
  | _ :: _, [] => false
  | a :: as, b :: bs => if a = b then recLt as bs else Value.ltb a b

/-! ## Python `sorted` -/

/-- Insert `a` into `l` before the first element not below `a`. -/
def pyInsert (lt : α → α → Bool) (a : α) : List α → List α
  | [] => [a]
  | b :: bs => if lt b a then b :: pyInsert lt a bs else a :: b :: bs

/-- Python `sorted(data)`: a stable comparison sort by `<`.  Modeled as
insertion sort, which agrees with every stable sort; for the full-tuple
record order tied elements are equal, so the result is the unique sorted
permutation. -/
def pySorted (lt : α → α → Bool) (l : List α) : List α := l.foldr (pyInsert lt) []

/-! ## UTF-8 -/

/-- Whether `cp` is a code point Python can UTF-8-encode: a unicode scalar
value, i.e. below `U+110000` and not a (lone) surrogate. -/
def isScalar (cp : Nat) : Bool :=
  decide (cp < 0x110000) && !(decide (0xD800 ≤ cp) && decide (cp < 0xE000))

/-- The UTF-8 encoding of one scalar value (1 to 4 bytes). -/
def utf8EncodeChar (cp : Nat) : List Nat :=
  if cp < 0x80 then [cp]
  else if cp < 0x800 then [0xC0 + cp / 0x40, 0x80 + cp % 0x40]
  else if cp < 0x10000 then
    [0xE0 + cp / 0x1000, 0x80 + cp / 0x40 % 0x40, 0x80 + cp % 0x40]
  else
    [0xF0 + cp / 0x40000, 0x80 + cp / 0x1000 % 0x40, 0x80 + cp / 0x40 % 0x40,
      0x80 + cp % 0x40]

/-- Python `s.encode('utf-8')`: `UnicodeEncodeError` (modeled as `none`) on a
lone surrogate (out-of-range code points cannot occur in a Python `str`). -/
def utf8Encode (cps : List Nat) : Option (List Nat) :=
  if cps.all isScalar then some (cps.map utf8EncodeChar).flatten else none

/-- Decode one UTF-8 character from the front of a byte list, strictly (as
CPython's decoder: rejects continuation-byte leads, overlong forms,
surrogates and values beyond `U+10FFFF`). -/
def utf8DecodeChar : List Nat → Option (Nat × List Nat)
  | [] => none
  | b :: rest =>
    if b < 0x80 then some (b, rest)
    else if b < 0xC2 then none
    else if b < 0xE0 then
      match rest with
      | c1 :: r1 =>
        if 0x80 ≤ c1 ∧ c1 < 0xC0 then
          some ((b - 0xC0) * 0x40 + (c1 - 0x80), r1)
        else none
      | [] => none
    else if b < 0xF0 then
      match rest with
      | c1 :: c2 :: r2 =>
        if (0x80 ≤ c1 ∧ c1 < 0xC0) ∧ (0x80 ≤ c2 ∧ c2 < 0xC0) ∧
            ¬(b = 0xE0 ∧ c1 < 0xA0) ∧ ¬(b = 0xED ∧ 0xA0 ≤ c1) then
          some ((b - 0xE0) * 0x1000 + (c1 - 0x80) * 0x40 + (c2 - 0x80), r2)
        else none
      | _ => none
    else if b < 0xF5 then
      match rest with
      | c1 :: c2 :: c3 :: r3 =>
        if (0x80 ≤ c1 ∧ c1 < 0xC0) ∧ (0x80 ≤ c2 ∧ c2 < 0xC0) ∧
            (0x80 ≤ c3 ∧ c3 < 0xC0) ∧ ¬(b = 0xF0 ∧ c1 < 0x90) ∧
            ¬(b = 0xF4 ∧ 0x90 ≤ c1) then
          some ((b - 0xF0) * 0x40000 + (c1 - 0x80) * 0x1000 + (c2 - 0x80) * 0x40 +
            (c3 - 0x80), r3)
        else none
      | _ => none
    else none

/-- Fuel-driven loop decoding a whole byte list (each step consumes at least
one byte, so fuel `bs.length` always suffices). -/
def utf8DecodeLoop : Nat → List Nat → Option (List Nat)
  | _, [] => some []
  | 0, _ :: _ => none
  | fuel + 1, b :: rest =>
    match utf8DecodeChar (b :: rest) with
    | none => none
    | some (cp, r) => (utf8DecodeLoop fuel r).map (fun cps => cp :: cps)

/-- Python `bs.decode('utf-8')`: `UnicodeDecodeError` modeled as `none`. -/
def utf8Decode (bs : List Nat) : Option (List Nat) := utf8DecodeLoop bs.length bs

/-! ## Signed integers: `to_bytes(s, signed=True)` / `from_bytes(signed=True)` -/

/-- Python `v.to_bytes(s, signed=True)`: `OverflowError` (modeled as `none`)
unless `-(256^s)/2 ≤ v < (256^s)/2`; otherwise the `s`-byte big-endian
two's-complement representation. -/
def toBytesSigned (v : Int) (s : Nat) : Option (List Nat) :=
  if -(256 ^ s : Int) ≤ 2 * v ∧ 2 * v < (256 ^ s : Int) then
    some (beBytes (v % (256 ^ s : Int)).toNat s)
  else none

/-- Python `int.from_bytes(bs, signed=True)` (big-endian two's complement;
the empty byte string decodes to `0`). -/
def fromBytesSigned (bs : List Nat) : Int :=
  if 2 * beNat bs < 256 ^ bs.length then (beNat bs : Int)
  else (beNat bs : Int) - (256 ^ bs.length : Int)

/-! ## The type registry `DTYPE` (source lines 62-76) -/

/-- The `len` component of a `DTypeDef`: either a plain `int` (the
`isinstance(len_, int)` branch in `write`) or a function of the value;
`none` models a raised exception (e.g. `len` of an `int`). -/
inductive LenRule where
  | fixed (n : Nat)
  | fn (f : Value → Option Nat)

/-- One entry of the `DTYPE` registry (`DTypeDef` namedtuple, the `name`
field omitted).  `encode v s` returns the bytes written for value `v` at
field width `s`, `none` for a raised exception (wrong type, overflow,
unencodable text); `decode` maps a byte window back to a value, `none` for
a raised exception (invalid UTF-8). -/
structure DTypeDef where
  lenRule : LenRule
  encode : Value → Nat → Option (List Nat)
  decode : List Nat → Option Value

/-- Code 0, `ascii` (latin-1 in the source): `len`;
`encode = v.encode('latin1').ljust(s, b' ')` (pads, never truncates);
`decode = v.rstrip(b' ').decode('latin1')`. -/
def dtypeAscii : DTypeDef where
  lenRule := .fn fun v => match v with
    | .text cps => some cps.length
    | .int _ => none
  encode v s := match v with
    | .text cps =>
      if cps.all (fun c => decide (c < 256)) then
        some (cps ++ List.replicate (s - cps.length) 32)
      else none
    | .int _ => none
  decode bs := some (.text (rstripSpaces bs))

/-- Code 1, `utf-8`: `len(v.encode('utf-8'))`;
`encode = v.encode('utf-8').ljust(s, b' ')`;
`decode = v.rstrip(b' ').decode('utf-8')`. -/
def dtypeUtf8 : DTypeDef where
  lenRule := .fn fun v => match v with
    | .text cps => (utf8Encode cps).map List.length
    | .int _ => none
  encode v s := match v with
    | .text cps => (utf8Encode cps).map (fun enc => enc ++ List.replicate (s - enc.length) 32)
    | .int _ => none
  decode bs := (utf8Decode (rstripSpaces bs)).map .text

/-- Code 10, `int` (unsigned): `_byte_length(v)`; `encode = v.to_bytes(s)`;
`decode = int.from_bytes(v)`. -/
def dtypeInt : DTypeDef where
  lenRule := .fn fun v => match v with
    | .int i => some (pyByteLength i.natAbs)
    | .text _ => none
  encode v s := match v with
    | .int i =>
      if 0 ≤ i ∧ i < ((256 ^ s : Nat) : Int) then some (beBytes i.toNat s) else none
    | .text _ => none
  decode bs := some (.int (beNat bs))

/-- Code 11, `signedint`: `_byte_length(2 * abs(v))`;
`encode = v.to_bytes(s, signed=True)`;
`decode = int.from_bytes(v, signed=True)`. -/
def dtypeSignedInt : DTypeDef where
  lenRule := .fn fun v => match v with
    | .int i => some (pyByteLength (2 * i.natAbs))
    | .text _ => none
  encode v s := match v with
    | .int i => toBytesSigned i s
    | .text _ => none
  decode bs := some (.int (fromBytesSigned bs))

/-- The built-in `DTYPE` registry; `none` models the `KeyError` raised when
a type code has no entry. -/
def stdDTYPE : Nat → Option DTypeDef
  | 0 => some dtypeAscii
  | 1 => some dtypeUtf8
  | 10 => some dtypeInt
  | 11 => some dtypeSignedInt
  | _ => none

/-! ## Class-level configuration -/

/-- The class attributes a concrete file type carries: `magic`,
`headerstart`, `record` (the schema type codes, one per field) and the
codec registry `DTYPE`. -/
structure ClsConfig where
  magic : List Nat
  headerstart : List Nat
  record : List Nat
  dtype : Nat → Option DTypeDef

/-- The `BinarySearchFile` base-class attributes (source lines 100-109):
`magic = b'\xfe\xfe\x01\x01'`, `headerstart = b'BinarySearchFile'`,
`record = (0, 10)`. -/
def baseCls : ClsConfig where
  magic := [0xFE, 0xFE, 0x01, 0x01]
  headerstart := [66, 105, 110, 97, 114, 121, 83, 101, 97, 114, 99, 104, 70, 105, 108, 101]
  record := [0, 10]
  dtype := stdDTYPE

/-! ## Codec round-trip lemmas -/

/-- `len_(v)` as used by `write`: the fixed length, or the length function
applied to the value. -/
def lenOf (dt : DTypeDef) (v : Value) : Option Nat :=
  match dt.lenRule with
  | .fixed n => some n
  | .fn f => f v

/-- `v` encodes under `dt` at width `s` to exactly `s` bytes that decode
back to `v`. -/
def EncodesExact (dt : DTypeDef) (v : Value) (s : Nat) : Prop :=
  ∃ e, dt.encode v s = some e ∧ e.length = s ∧ dt.decode e = some v

/-- Hygiene of a value under a built-in type code: the value has the type
the codec expects, text is encodable and does not end in a space, and
unsigned integers are non-negative. -/
def ValueClean : Nat → Value → Prop
  | 0, .text cps => cps.all (fun c => decide (c < 256)) = true ∧ ∀ x ∈ cps.getLast?, x ≠ 32
  | 1, .text cps => cps.all isScalar = true ∧ ∀ x ∈ cps.getLast?, x ≠ 32
  | 10, .int i => 0 ≤ i
  | 11, .int _ => True
  | _, _ => False

/-! ## The binary search engine (`_binarysearch`, source lines 47-55) -/

/-- The `while lo < hi` loop of `_binarysearch`.  The loop halves `hi - lo`
each iteration, so any `fuel ≥ hi - lo` yields the loop's exit value; the
fuel only makes the recursion structural. -/
def bsLoop {K : Type} (lt : K → K → Bool) (f : Nat → K) (x : K) (left : Bool) :
    Nat → Nat → Nat → Nat
  | 0, lo, _ => lo
  | fuel + 1, lo, hi =>
    if lo < hi then
      let mid := (lo + hi) / 2
      if (left && lt (f mid) x) || (!left && !(lt x (f mid))) then
        bsLoop lt f x left fuel (mid + 1) hi
      else
        bsLoop lt f x left fuel lo mid
    else lo

/-- `_binarysearch(f, x, hi, left)`: binary search over the abstract key
accessor `f` with the order `lt`, returning `lo - (left == False)`. -/
def binarysearch {K : Type} (lt : K → K → Bool) (f : Nat → K) (x : K)
    (hi : Nat) (left : Bool) : Int :=
  (bsLoop lt f x left hi 0 hi : Int) - (if left then 0 else 1)

/-! ## Search and getall over an open sorted file -/

/-- Abstraction of an open `BinarySearchFile` for the key-based operations:
`n` is `len(self)`, `getKey i` is `self._get_key(i)` (the decoded first
field of record `i`; an index outside `[0, n)` makes `_get_key` read bytes
outside the data region — past the end of the file the read returns the
empty byte string and `getKey` its decode), and `getData i` is
`self._get_data(i)`. -/
structure SortedView where
  n : Nat
  getKey : Int → Value
  getData : Int → Rec

/-- `BinarySearchFile.search(key, first)` (source lines 190-199):
`_binarysearch(self._get_key, key, len(self), left=first)`, then raise
`ValueError` (modeled as `none`) unless the key at the returned record
number equals `key`. -/
def searchModel (v : SortedView) (key : Value) (first : Bool) : Option Int :=
  let recnum := binarysearch Value.ltb (fun i : Nat => v.getKey (i : Int)) key v.n first
  if v.getKey recnum = key then some recnum else none

/-- Keys of a sorted file ascend on the record range. -/
def KeysSorted (v : SortedView) : Prop :=
  ∀ i j : Nat, i ≤ j → j < v.n → Value.ltb (v.getKey (j : Int)) (v.getKey (i : Int)) = false

/-- The `while key == fkey` loop of `getall` (source lines 217-221): append
`self._get_data(recnum)`, advance, read the next key, continue while it
still equals `key`.  `fuel` bounds the number of iterations. -/
def getallLoop (v : SortedView) (key : Value) :
    Nat → Int → List Rec → Option (List Rec)
  | 0, _, _ => none
  | fuel + 1, recnum, acc =>
    if key = v.getKey (recnum + 1) then
      getallLoop v key fuel (recnum + 1) (acc ++ [v.getData recnum])
    else some (acc ++ [v.getData recnum])

/-- `f.seek(pos); f.read(n)` on a file with content `bs` (a read past the
end of the file returns the available bytes only). -/
def readAt (bs : List Nat) (pos n : Nat) : List Nat := (bs.drop pos).take n

/-- `zip(*rows)` with fuel (each step shortens every row by one, so the
length of the first row is exactly enough fuel); `d` is a dummy default
never read on the executed paths. -/
def zipColsF {α : Type} (d : α) : Nat → List (List α) → List (List α)
  | 0, _ => []
  | fuel + 1, rows =>
    if rows.isEmpty then []
    else if rows.any (fun r => r.isEmpty) then []
    else (rows.map (fun r => r.headD d)) :: zipColsF d fuel (rows.map List.tail)

/-- `zip(*rows)`: the columns of `rows`, truncated at the shortest row. -/
def zipCols {α : Type} (d : α) (rows : List (List α)) : List (List α) :=
  zipColsF d (rows.headD []).length rows

/-! ## `BinarySearchFile.write` (source lines 238-272) -/

/-- The width of one column (source lines 252-257): the registry's fixed
length if `len_` is an `int`, else `max(len_(d1) for d1 in d)`; `none`
models an exception from `len_` or `max` of an empty generator. -/
def computeSize (dt : DTypeDef) (col : List Value) : Option Nat :=
  match dt.lenRule with
  | .fixed n => some n
  | .fn f =>
    match col.mapM f with
    | none => none
    | some [] => none
    | some (l0 :: ls) => some ((l0 :: ls).foldl Nat.max 0)

/-- The widths of all columns, with the running index `i` of
`for i, d in enumerate(zip(*sorted(data)))`; `self.record[i]` out of range
(`IndexError`) and an unknown type code (`KeyError`) are `none`. -/
def computeSizes (dtype : Nat → Option DTypeDef) (codes : List Nat) :
    List (List Value) → Nat → Option (List Nat)
  | [], _ => some []
  | col :: cols, i => do
    let code ← codes[i]?
    let dt ← dtype code
    let s ← computeSize dt col
    let rest ← computeSizes dtype codes cols (i + 1)
    pure (s :: rest)

/-- The field-descriptor bytes: per column, `num.to_bytes(1)` then
`s.to_bytes(2)` (source lines 258-259; the source writes them inside the
same loop that computes the sizes). -/
def descBytes (codes : List Nat) : List Nat → Nat → Option (List Nat)
  | [], _ => some []
  | s :: ss, i => do
    let code ← codes[i]?
    let cb ← toBytesBE code 1
    let sb ← toBytesBE s 2
    let rest ← descBytes codes ss (i + 1)
    pure (cb ++ sb ++ rest)

/-- Encode one record (source lines 267-270):
`for i, field in enumerate(d): f.write(DTYPE[self.record[i]].encode(field, size[i]))`. -/
def encodeRow (dtype : Nat → Option DTypeDef) (codes sizes : List Nat) :
    Rec → Nat → Option (List Nat)
  | [], _ => some []
  | fval :: fs, i => do
    let code ← codes[i]?
    let dt ← dtype code
    let s ← sizes[i]?
    let e ← dt.encode fval s
    let rest ← encodeRow dtype codes sizes fs (i + 1)
    pure (e ++ rest)

/-- `BinarySearchFile.write(data, header)`: the byte content of the
recreated file, `none` when the source raises (overflowing `to_bytes`,
unknown type code, ragged records).  The source reserves 4 bytes after the
magic and backfills `metaoffset`/`dataoffset` with a seek; the model places
the backfilled values directly. -/
def writeModel (cls : ClsConfig) (data : List Rec) (header : List Nat) :
    Option (List Nat) := do
  let blob := cls.headerstart ++ header
  let metaoffset := cls.magic.length + 4 + blob.length
  let sortedData := pySorted recLt data
  let cols := zipCols (Value.int 0) sortedData
  let sizes ← computeSizes cls.dtype cls.record cols 0
  let reclenB ← toBytesBE cls.record.length 2
  let descs ← descBytes cls.record sizes 0
  let dataoffset := metaoffset + 2 + descs.length
  let moB ← toBytesBE metaoffset 2
  let doB ← toBytesBE dataoffset 2
  let rows ← sortedData.mapM (fun d => encodeRow cls.dtype cls.record sizes d 0)
  pure (cls.magic ++ moB ++ doB ++ blob ++ reclenB ++ descs ++ rows.flatten)

/-! ## Header parsing (`read_header` / `_read_header`) -/

/-- The parsed header state: `attr.metaoffset`, `attr.dataoffset`, the
header blob (`self.header`), and the schema read from the file
(`self.record`, `self.size`). -/
structure HeaderInfo where
  metaoffset : Nat
  dataoffset : Nat
  header : List Nat
  record : List Nat
  size : List Nat
  deriving DecidableEq, Repr

/-- `attr.recsize = sum(self.size)`. -/
def HeaderInfo.recsize (info : HeaderInfo) : Nat := info.size.sum

/-- `_Attr.len`: `0` when `recsize` is `0` (or unset), else
`(totalsize - dataoffset) // recsize` with Python floor division. -/
def attrLen (info : HeaderInfo) (totalsize : Nat) : Int :=
  if info.recsize = 0 then 0
  else ((totalsize : Int) - (info.dataoffset : Int)).fdiv (info.recsize : Int)

/-- `_sizecheck` (source lines 172-173 and 395-396):
`dataoffset + len * recsize == totalsize`. -/
def sizeCheck (info : HeaderInfo) (totalsize : Nat) : Bool :=
  (info.dataoffset : Int) + attrLen info totalsize * (info.recsize : Int) ==
    (totalsize : Int)

/-- `_check_magic` (source lines 136-143 and 329-335): read the first four
bytes and compare the first magic byte (`magic[0] == self.magic[0]`) for the
base class, the first two (`magic[:2] == self.magic[:2]`) for a derived
class.  `none` models the `IndexError` of `magic[0]` on an empty file. -/
def checkMagicInst (cls : ClsConfig) (isBase : Bool) (bs : List Nat) : Option Bool :=
  let m := readAt bs 0 4
  if isBase then
    match m.head?, cls.magic.head? with
    | some a, some b => some (a == b)
    | _, _ => none
  else
    some (m.take 2 == cls.magic.take 2)

/-- The recoverable warnings `read_header` can issue. -/
inductive Warn where
  | wrongMagic
  | sizeInconsistent
  deriving DecidableEq, Repr

/-- `read_header` / `_read_header` (source lines 145-166 and 337-354):
validate the magic (a mismatch only adds a warning), read `metaoffset` and
`dataoffset`, read the header blob
(`f.read(metaoffset - len(self.magic) - 4)`), assert the cursor landed on
`metaoffset`, then read the field table and run `_sizecheck`.  The first
component collects the issued warnings; `none` models an uncaught
exception: `IndexError` from the magic check, `ValueError` from a read
size below `-1`, or the `AssertionError`. -/
def readHeaderModel (cls : ClsConfig) (isBase : Bool) (bs : List Nat) :
    List Warn × Option HeaderInfo :=
  match checkMagicInst cls isBase bs with
  | none => ([], none)
  | some ok =>
    let w1 : List Warn := if ok then [] else [.wrongMagic]
    let metaoffset := beNat (readAt bs 4 2)
    let dataoffset := beNat (readAt bs 6 2)
    let cnt : Int := (metaoffset : Int) - (cls.magic.length : Int) - 4
    if cnt < -1 then (w1, none)
    else
      let header := if cnt = -1 then bs.drop (cls.magic.length + 4)
        else readAt bs (cls.magic.length + 4) cnt.toNat
      if cls.magic.length + 4 + header.length ≠ metaoffset then (w1, none)
      else
        let reclen := beNat (readAt bs metaoffset 2)
        let record := (List.range reclen).map
          (fun i => beNat (readAt bs (metaoffset + 2 + 3 * i) 1))
        let size := (List.range reclen).map
          (fun i => beNat (readAt bs (metaoffset + 2 + 3 * i + 1) 2))
        let info : HeaderInfo := ⟨metaoffset, dataoffset, header, record, size⟩
        let w2 : List Warn := if sizeCheck info bs.length then [] else [.sizeInconsistent]
        (w1 ++ w2, some info)

/-- `_get_data` with the file cursor at `pos` (source lines 182-188 and
398-403): decode one field per `zip(self.record, self.size)` entry, each
reading `size` bytes (short reads at end of file).  Returns the record and
the new cursor position; `none` models a missing codec (`KeyError`) or a
decode error. -/
def getDataAt (dtype : Nat → Option DTypeDef) :
    List (Nat × Nat) → List Nat → Nat → Option (Rec × Nat)
  | [], _, pos => some ([], pos)
  | (code, s) :: fields, bs, pos => do
    let dt ← dtype code
    let bytes := readAt bs pos s
    let v ← dt.decode bytes
    let (rest, pos2) ← getDataAt dtype fields bs (pos + bytes.length)
    pure (v :: rest, pos2)

/-- The record loop of `read()`: decode `count` consecutive records from
the cursor. -/
def readRecords (dtype : Nat → Option DTypeDef) (fields : List (Nat × Nat))
    (bs : List Nat) : Nat → Nat → Option (List Rec)
  | _, 0 => some []
  | pos, count + 1 => do
    let (r, pos2) ← getDataAt dtype fields bs pos
    let rest ← readRecords dtype fields bs pos2 count
    pure (r :: rest)

/-- `BinarySearchFile.read()` (source lines 224-236, `item=None`): parse
the header, seek to `dataoffset`, decode `len(self)` records. -/
def readAllModel (cls : ClsConfig) (isBase : Bool) (bs : List Nat) :
    Option (List Rec) :=
  match readHeaderModel cls isBase bs with
  | (_, none) => none
  | (_, some info) =>
    readRecords cls.dtype (info.record.zip info.size) bs info.dataoffset
      (attrLen info bs.length).toNat

/-- `BinarySearchFile.update(data, header=None)` (source lines 274-287):
`odata = self.read()`, then since `header` is `None` take
`header = self.header` (the blob read from the file, which already starts
with `headerstart`), and call `self.write(odata + data, header=header)`. -/
def updateModel (cls : ClsConfig) (isBase : Bool) (bs : List Nat)
    (data : List Rec) : Option (List Nat) :=
  match readHeaderModel cls isBase bs with
  | (_, none) => none
  | (_, some info) =>
    match readAllModel cls isBase bs with
    | none => none
    | some odata => writeModel cls (odata ++ data) info.header

/-- The class-level probe `check_magic(fname, n)` (source lines 126-134 and
320-327): `False` when the file cannot be opened (`none`), otherwise
compare `f.read(4)[:n] == cls.magic[:n]`. -/
def checkMagicCls (cls : ClsConfig) (file : Option (List Nat)) (n : Nat) : Bool :=
  match file with
  | none => false
  | some bs => (bs.take 4).take n == cls.magic.take n

/-! ## The sequential variant (`BinarySequentialFile`) -/

/-- `BinarySequentialFile` class attributes (source lines 300-306):
same magic, `headerstart = b'BinarySequentialFile'`, `record = (0, 10)`. -/
def seqCls : ClsConfig where
  magic := [0xFE, 0xFE, 0x01, 0x01]
  headerstart := [66, 105, 110, 97, 114, 121, 83, 101, 113, 117, 101, 110,
    116, 105, 97, 108, 70, 105, 108, 101]
  record := [0, 10]
  dtype := stdDTYPE

/-- `BinarySequentialFile.size = (20, 2)` (source line 306): the fixed
per-field widths of the class. -/
def seqClsSize : List Nat := [20, 2]

/-- Opening a fresh sequential file (`open` → `_write_header`, source lines
356-388) followed by `write(r)` for each record of `data` (source lines
429-435): the header layout matches the sorted writer's, the class field
widths `sizes` are used as given, and the records are appended in order,
each field written as `DTYPE[self.record[i]].encode(field, self.size[i])`
with no sorting and no width validation. -/
def seqWriteModel (cls : ClsConfig) (sizes : List Nat) (data : List Rec)
    (header : List Nat) : Option (List Nat) := do
  let blob := cls.headerstart ++ header
  let metaoffset := cls.magic.length + 4 + blob.length
  let reclenB ← toBytesBE cls.record.length 2
  let descs ← descBytes cls.record sizes 0
  let dataoffset := metaoffset + 2 + descs.length
  let moB ← toBytesBE metaoffset 2
  let doB ← toBytesBE dataoffset 2
  let rows ← data.mapM (fun d => encodeRow cls.dtype cls.record sizes d 0)
  pure (cls.magic ++ moB ++ doB ++ blob ++ reclenB ++ descs ++ rows.flatten)

/-- A Python `slice` object: each of `start`, `stop`, `step` may be `None`. -/
structure PySlice where
  start : Option Int
  stop : Option Int
  step : Option Int
  deriving DecidableEq, Repr

/-- CPython's `slice.indices(n)` (`_PySlice_GetLongIndices`): resolve the
three components against length `n`, clamping to `[0, n]` for a positive
step and `[-1, n-1]` for a negative one.  `none` models the `ValueError`
raised for step `0`. -/
def PySlice.indices (s : PySlice) (n : Nat) : Option (Int × Int × Int) :=
  let step := s.step.getD 1
  if step = 0 then none
  else
    let lower : Int := if step < 0 then -1 else 0
    let upper : Int := if step < 0 then (n : Int) - 1 else (n : Int)
    let start := match s.start with
      | Option.none => if step < 0 then upper else lower
      | some v => if v < 0 then max (v + n) lower else min v upper
    let stop := match s.stop with
      | Option.none => if step < 0 then lower else upper
      | some v => if v < 0 then max (v + n) lower else min v upper
    some (start, stop, step)

/-- Abstraction of an open sequential file for `read`: `n` is `len(self)`
and `getData i` is `self._get_data(i=i)` (the record decoded at
`dataoffset + i * recsize`). -/
structure SeqView where
  n : Nat
  getData : Int → Rec

/-- The index argument of `BinarySequentialFile.read`: `None`, an `int`, a
`slice`, or anything else. -/
inductive SeqIndex where
  | all
  | int (i : Int)
  | slice (s : PySlice)
  | other

/-- What `read` produces: a single record, a list, or a raised
`ValueError`. -/
inductive SeqResult where
  | one (r : Rec)
  | many (rs : List Rec)
  | err
  deriving Repr, DecidableEq

/-- Python's `range(j, k)` as a list of integers. -/
def intRange (j k : Int) : List Int :=
  (List.range (k - j).toNat).map (fun m : Nat => j + (m : Int))

/-- `BinarySequentialFile.read(i)` (source lines 411-427): `None` reads all
`len(self)` records in file order; an `int` reads one record; a `slice` is
resolved with `i.indices(len(self))`, strides other than `1` and `-1`
raise `ValueError` before any file access, stride `-1` rebinds
`j, k = k+1, j+1`, then the records `j, …, k-1` are read forward and the
list is reversed by `[::stride]`; any other index raises `ValueError`. -/
def readSeqModel (v : SeqView) : SeqIndex → SeqResult
  | .all => .many ((intRange 0 v.n).map v.getData)
  | .int i => .one (v.getData i)
  | .slice s =>
    match PySlice.indices s v.n with
    | Option.none => .err
    | some (j, k, stride) =>
      if stride.natAbs ≠ 1 then .err
      else if stride = -1 then
        .many (((intRange (k + 1) (j + 1)).map v.getData).reverse)
      else .many ((intRange j k).map v.getData)
  | .other => .err

/-- Specification-side reference, written from the spec's words: the index
sequence Python's ordinary extended slicing `range(n)[start:stop:step]`
selects (`none` for the step-`0` error).  `count` is CPython's slice
length formula. -/
def sliceSpec (s : PySlice) (n : Nat) : Option (List Int) :=
  match PySlice.indices s n with
  | Option.none => Option.none
  | some (start, stop, step) =>
    let count : Nat := if 0 < step then ((stop - start + step - 1).fdiv step).toNat
      else ((start - stop - step - 1).fdiv (-step)).toNat
    some ((List.range count).map (fun m : Nat => start + (m : Int) * step))

/-- Every field of `row` (against the schema tail from index `i`) encodes
to exactly its width and decodes back to itself. -/
def RowOk (dtype : Nat → Option DTypeDef) (codes sizes : List Nat) (row : Rec)
    (i : Nat) : Prop :=
  ∀ j : Nat, j < row.length → ∃ dt e,
    dtype (codes.getD (i + j) 0) = some dt ∧
    dt.encode (row.getD j (Value.int 0)) (sizes.getD (i + j) 0) = some e ∧
    e.length = sizes.getD (i + j) 0 ∧
    dt.decode e = some (row.getD j (Value.int 0))

/-- The flattened descriptor block of a (code, size) list. -/
def descConcat (pairs : List (Nat × Nat)) : List Nat :=
  (pairs.map (fun p => beBytes p.1 1 ++ beBytes p.2 2)).flatten

/-- Hypotheses under which `write` succeeds and round-trips: the standard
registry, 4-byte magic, rectangular well-typed data with clean values, and
all header quantities fitting their fixed-width fields. -/
structure WriteOk (cls : ClsConfig) (data : List Rec) (header : List Nat) : Prop where
  hdtype : cls.dtype = stdDTYPE
  hmagic : cls.magic.length = 4
  hrect : ∀ r ∈ data, r.length = cls.record.length
  hclean : ∀ r ∈ data, ∀ j : Nat, j < r.length →
    ValueClean (cls.record.getD j 0) (r.getD j (Value.int 0))
  hcodes : ∀ c ∈ cls.record, c < 256
  hreclen : cls.record.length < 65536
  hdo : 8 + (cls.headerstart ++ header).length + 2 + 3 * cls.record.length < 65536
  hLbound : ∀ r ∈ data, ∀ j : Nat, j < r.length →
    ((stdDTYPE (cls.record.getD j 0)).bind
      (fun dt => lenOf dt (r.getD j (Value.int 0)))).getD 0 < 65536

theorem beBytes_length (n s : Nat) : (beBytes n s).length = s := by
  induction s generalizing n with
  | zero => rfl
  | succ s ih => simp [beBytes, ih]

theorem beNat_append_singleton (bs : List Nat) (b : Nat) :
    beNat (bs ++ [b]) = beNat bs * 256 + b := by
  simp [beNat, List.foldl_append]

theorem beNat_beBytes (n s : Nat) (h : n < 256 ^ s) : beNat (beBytes n s) = n := by
  induction s generalizing n with
  | zero =>
    interval_cases n
    rfl
  | succ s ih =>
    rw [beBytes, beNat_append_singleton, ih]
    · omega
    · have : 256 ^ (s + 1) = 256 ^ s * 256 := by ring
      rw [this] at h
      exact Nat.div_lt_of_lt_mul (by omega)

theorem toBytesBE_eq (n s : Nat) (h : n < 256 ^ s) :
    toBytesBE n s = some (beBytes n s) := by
  simp [toBytesBE, h]

theorem bitLengthAux_le_iff :
    ∀ (fuel n s : Nat), n ≤ fuel → (bitLengthAux fuel n ≤ s ↔ n < 2 ^ s) := by
  intro fuel
  induction fuel with
  | zero =>
    intro n s hn
    have : n = 0 := by omega
    subst this
    simp [bitLengthAux, Nat.pos_pow_of_pos]
  | succ fuel ih =>
    intro n s hn
    by_cases h0 : n = 0
    · subst h0
      simp [bitLengthAux, Nat.pos_pow_of_pos]
    · rw [bitLengthAux, if_neg h0]
      cases s with
      | zero =>
        simp only [pow_zero]
        omega
      | succ s =>
        have hdiv : n / 2 ≤ fuel := by omega
        have hiff := ih (n / 2) s hdiv
        have hpow : (2 : Nat) ^ (s + 1) = 2 * 2 ^ s := by ring
        constructor
        · intro h
          have := hiff.mp (by omega)
          omega
        · intro h
          have := hiff.mpr (by omega)
          omega

theorem bitLength_le_iff (n s : Nat) : bitLength n ≤ s ↔ n < 2 ^ s :=
  bitLengthAux_le_iff n n s le_rfl

theorem pyByteLength_le_iff (v s : Nat) : pyByteLength v ≤ s ↔ v < 256 ^ s := by
  have h8 : (256 : Nat) ^ s = 2 ^ (8 * s) := by
    rw [show (256 : Nat) = 2 ^ 8 from rfl, ← pow_mul]
  have hb := bitLength_le_iff v (8 * s)
  rw [h8, pyByteLength]
  omega

theorem rstripSpaces_append_replicate (bs : List Nat) (k : Nat) :
    rstripSpaces (bs ++ List.replicate k 32) = rstripSpaces bs := by
  unfold rstripSpaces
  rw [List.reverse_append, List.reverse_replicate]
  congr 1
  induction k with
  | zero => simp
  | succ k ih =>
    rw [List.replicate_succ, List.cons_append, List.dropWhile_cons]
    simp

theorem rstripSpaces_eq_self (bs : List Nat) (h : ∀ x ∈ bs.getLast?, x ≠ 32) :
    rstripSpaces bs = bs := by
  unfold rstripSpaces
  cases hr : bs.reverse with
  | nil =>
    have : bs = [] := by simpa using congrArg List.reverse hr
    simp [this]
  | cons y ys =>
    have hy : bs.getLast? = some y := by
      rw [← List.head?_reverse, hr]
      rfl
    have hy32 : (y == 32) = false := by simpa using h y hy
    have hb : (y :: ys).reverse = bs := by rw [← hr, List.reverse_reverse]
    simp [List.dropWhile_cons, hy32, hb]

theorem rstripSpaces_nil : rstripSpaces [] = [] := rfl

theorem cpsLt_irrefl (a : List Nat) : cpsLt a a = false := by
  induction a with
  | nil => rfl
  | cons x xs ih => simp [cpsLt, ih]

theorem cpsLt_trichotomy (a b : List Nat) :
    cpsLt a b = true ∨ a = b ∨ cpsLt b a = true := by
  induction a generalizing b with
  | nil => cases b <;> simp [cpsLt]
  | cons x xs ih =>
    cases b with
    | nil => simp [cpsLt]
    | cons y ys =>
      by_cases hxy : x = y
      · subst hxy
        rcases ih ys with h | h | h
        · exact Or.inl (by simp [cpsLt, h])
        · exact Or.inr (Or.inl (by rw [h]))
        · exact Or.inr (Or.inr (by simp [cpsLt, h]))
      · rcases Nat.lt_or_ge x y with h | h
        · exact Or.inl (by simp [cpsLt, hxy, h])
        · have hyx : y < x := by omega
          exact Or.inr (Or.inr (by simp [cpsLt, Ne.symm hxy, hyx]))

theorem cpsLt_trans {a b c : List Nat} (h1 : cpsLt a b = true)
    (h2 : cpsLt b c = true) : cpsLt a c = true := by
  induction a generalizing b c with
  | nil =>
    cases b with
    | nil => simp [cpsLt] at h1
    | cons y ys => cases c with
      | nil => simp [cpsLt] at h2
      | cons z zs => simp [cpsLt]
  | cons x xs ih =>
    cases b with
    | nil => simp [cpsLt] at h1
    | cons y ys =>
      cases c with
      | nil => simp [cpsLt] at h2
      | cons z zs =>
        simp only [cpsLt] at h1 h2 ⊢
        by_cases hxy : x = y <;> by_cases hyz : y = z
        · subst hxy; subst hyz
          simp_all
          exact ih h1 h2
        · subst hxy
          simp_all
        · subst hyz
          simp_all
        · simp_all
          by_cases hxz : x = z
          · subst hxz; omega
          · simp [hxz]; omega

/-- `¬ b < a` together with `b < c` gives `a < c` (i.e. `a ≤ b < c`). -/
theorem cpsLt_le_lt_trans {a b c : List Nat} (h1 : cpsLt b a = false)
    (h2 : cpsLt b c = true) : cpsLt a c = true := by
  rcases cpsLt_trichotomy a b with h | h | h
  · exact cpsLt_trans h h2
  · subst h; exact h2
  · rw [h] at h1; cases h1

/-- `a < b` together with `¬ c < b` gives `a < c` (i.e. `a < b ≤ c`). -/
theorem cpsLt_lt_le_trans {a b c : List Nat} (h1 : cpsLt a b = true)
    (h2 : cpsLt c b = false) : cpsLt a c = true := by
  rcases cpsLt_trichotomy b c with h | h | h
  · exact cpsLt_trans h1 h
  · subst h; exact h1
  · rw [h] at h2; cases h2

theorem Value.ltb_irrefl (a : Value) : Value.ltb a a = false := by
  cases a with
  | text s => simp [Value.ltb, cpsLt_irrefl]
  | int v => simp [Value.ltb]

theorem Value.ltb_trichotomy (a b : Value) :
    Value.ltb a b = true ∨ a = b ∨ Value.ltb b a = true := by
  cases a with
  | text s => cases b with
    | text t =>
      rcases cpsLt_trichotomy s t with h | h | h
      · exact Or.inl (by simpa [Value.ltb] using h)
      · exact Or.inr (Or.inl (by rw [h]))
      · exact Or.inr (Or.inr (by simpa [Value.ltb] using h))
    | int w => exact Or.inr (Or.inr (by simp [Value.ltb]))
  | int v => cases b with
    | text t => exact Or.inl (by simp [Value.ltb])
    | int w =>
      rcases lt_trichotomy v w with h | h | h
      · exact Or.inl (by simpa [Value.ltb] using h)
      · exact Or.inr (Or.inl (by rw [h]))
      · exact Or.inr (Or.inr (by simpa [Value.ltb] using h))

theorem Value.ltb_trans {a b c : Value} (h1 : Value.ltb a b = true)
    (h2 : Value.ltb b c = true) : Value.ltb a c = true := by
  cases a <;> cases b <;> cases c <;> simp_all [Value.ltb]
  · exact cpsLt_trans h1 h2
  · omega

theorem Value.ltb_le_lt_trans {a b c : Value} (h1 : Value.ltb b a = false)
    (h2 : Value.ltb b c = true) : Value.ltb a c = true := by
  cases a <;> cases b <;> cases c <;> simp_all [Value.ltb]
  · exact cpsLt_le_lt_trans h1 h2
  · omega

theorem Value.ltb_lt_le_trans {a b c : Value} (h1 : Value.ltb a b = true)
    (h2 : Value.ltb c b = false) : Value.ltb a c = true := by
  cases a <;> cases b <;> cases c <;> simp_all [Value.ltb]
  · exact cpsLt_lt_le_trans h1 h2
  · omega

theorem Value.ltb_antisymm {a b : Value} (h1 : Value.ltb a b = false)
    (h2 : Value.ltb b a = false) : a = b := by
  rcases Value.ltb_trichotomy a b with h | h | h
  · rw [h] at h1; cases h1
  · exact h
  · rw [h] at h2; cases h2

theorem recLt_trichotomy (a b : Rec) :
    recLt a b = true ∨ a = b ∨ recLt b a = true := by
  induction a generalizing b with
  | nil => cases b <;> simp [recLt]
  | cons x xs ih =>
    cases b with
    | nil => simp [recLt]
    | cons y ys =>
      by_cases hxy : x = y
      · subst hxy
        rcases ih ys with h | h | h
        · exact Or.inl (by simp [recLt, h])
        · exact Or.inr (Or.inl (by rw [h]))
        · exact Or.inr (Or.inr (by simp [recLt, h]))
      · rcases Value.ltb_trichotomy x y with h | h | h
        · exact Or.inl (by simp [recLt, hxy, h])
        · exact absurd h hxy
        · exact Or.inr (Or.inr (by simp [recLt, Ne.symm hxy, h]))

theorem recLt_trans {a b c : Rec} (h1 : recLt a b = true)
    (h2 : recLt b c = true) : recLt a c = true := by
  induction a generalizing b c with
  | nil =>
    cases b with
    | nil => simp [recLt] at h1
    | cons y ys => cases c with
      | nil => simp [recLt] at h2
      | cons z zs => simp [recLt]
  | cons x xs ih =>
    cases b with
    | nil => simp [recLt] at h1
    | cons y ys =>
      cases c with
      | nil => simp [recLt] at h2
      | cons z zs =>
        simp only [recLt] at h1 h2 ⊢
        by_cases hxy : x = y <;> by_cases hyz : y = z
        · subst hxy; subst hyz
          simp_all
          exact ih h1 h2
        · subst hxy
          simp_all
        · subst hyz
          simp_all
        · simp only [hxy, if_false, hyz] at h1 h2
          by_cases hxz : x = z
          · subst hxz
            have hcontra := Value.ltb_trans h1 h2
            rw [Value.ltb_irrefl] at hcontra
            cases hcontra
          · simp only [hxz, if_false]
            exact Value.ltb_trans h1 h2

/-- `a ≤ b < c → a < c` for records. -/
theorem recLt_le_lt_trans {a b c : Rec} (h1 : recLt b a = false)
    (h2 : recLt b c = true) : recLt a c = true := by
  rcases recLt_trichotomy a b with h | h | h
  · exact recLt_trans h h2
  · subst h; exact h2
  · rw [h] at h1; cases h1

theorem pyInsert_perm (lt : α → α → Bool) (a : α) (l : List α) :
    List.Perm (pyInsert lt a l) (a :: l) := by
  induction l with
  | nil => exact List.Perm.refl _
  | cons b bs ih =>
    rw [pyInsert]
    split
    · exact ((ih.cons b).trans (List.Perm.swap a b bs))
    · exact List.Perm.refl _

theorem pySorted_perm (lt : α → α → Bool) (l : List α) :
    List.Perm (pySorted lt l) l := by
  induction l with
  | nil => exact List.Perm.refl _
  | cons a as ih => exact (pyInsert_perm lt a (pySorted lt as)).trans (ih.cons a)

theorem mem_pySorted (lt : α → α → Bool) (l : List α) (a : α) :
    a ∈ pySorted lt l ↔ a ∈ l := (pySorted_perm lt l).mem_iff

theorem utf8EncodeChar_length_pos (cp : Nat) : 0 < (utf8EncodeChar cp).length := by
  unfold utf8EncodeChar
  split
  · simp
  · split
    · simp
    · split <;> simp

theorem utf8DecodeChar_encodeChar (cp : Nat) (h : isScalar cp = true)
    (t : List Nat) : utf8DecodeChar (utf8EncodeChar cp ++ t) = some (cp, t) := by
  have hs : cp < 0x110000 ∧ (cp < 0xD800 ∨ 0xE000 ≤ cp) := by
    simpa [isScalar, Decidable.not_and_iff_or_not] using h
  rcases Nat.lt_or_ge cp 0x80 with hA | hA
  · rw [utf8EncodeChar, if_pos hA, List.cons_append, List.nil_append,
      utf8DecodeChar.eq_def]
    simp only
    rw [if_pos hA]
  · rcases Nat.lt_or_ge cp 0x800 with hB | hB
    · rw [utf8EncodeChar, if_neg (by omega), if_pos hB, List.cons_append,
        List.cons_append, List.nil_append, utf8DecodeChar.eq_def]
      simp only
      rw [if_neg (by omega), if_neg (by omega), if_pos (by omega),
        if_pos (by constructor <;> omega)]
      refine congrArg some (Prod.ext ?_ rfl)
      simp only
      omega
    · rcases Nat.lt_or_ge cp 0x10000 with hC | hC
      · rw [utf8EncodeChar, if_neg (by omega), if_neg (by omega), if_pos hC]
        simp only [List.cons_append, List.nil_append]
        rw [utf8DecodeChar.eq_def]
        simp only
        rw [if_neg (by omega), if_neg (by omega), if_neg (by omega),
          if_pos (by omega)]
        rw [if_pos (by refine ⟨⟨by omega, by omega⟩, ⟨by omega, by omega⟩, ?_, ?_⟩ <;> omega)]
        refine congrArg some (Prod.ext ?_ rfl)
        simp only
        omega
      · rw [utf8EncodeChar, if_neg (by omega), if_neg (by omega), if_neg (by omega)]
        simp only [List.cons_append, List.nil_append]
        rw [utf8DecodeChar.eq_def]
        simp only
        rw [if_neg (by omega), if_neg (by omega), if_neg (by omega),
          if_neg (by omega), if_pos (by omega)]
        rw [if_pos (by refine ⟨⟨by omega, by omega⟩, ⟨by omega, by omega⟩,
          ⟨by omega, by omega⟩, ?_, ?_⟩ <;> omega)]
        refine congrArg some (Prod.ext ?_ rfl)
        simp only
        omega

theorem utf8DecodeLoop_encode (cps : List Nat) (hv : cps.all isScalar = true)
    (fuel : Nat) (hf : (cps.map utf8EncodeChar).flatten.length ≤ fuel) :
    utf8DecodeLoop fuel (cps.map utf8EncodeChar).flatten = some cps := by
  induction cps generalizing fuel with
  | nil =>
    cases fuel <;> rfl
  | cons c cs ih =>
    rw [List.all_cons, Bool.and_eq_true] at hv
    rw [List.map_cons, List.flatten_cons]
    have hcl := utf8EncodeChar_length_pos c
    have hne : utf8EncodeChar c ++ (cs.map utf8EncodeChar).flatten ≠ [] := by
      intro hcontra
      rcases List.append_eq_nil.mp hcontra with ⟨h1, -⟩
      rw [h1] at hcl
      simp at hcl
    rw [List.map_cons, List.flatten_cons, List.length_append] at hf
    cases fuel with
    | zero =>
      exfalso
      omega
    | succ fuel =>
      obtain ⟨b, rest, hbr⟩ := List.exists_cons_of_ne_nil hne
      rw [hbr, utf8DecodeLoop, ← hbr, utf8DecodeChar_encodeChar c hv.1]
      have hrec := ih hv.2 fuel (by omega)
      simp [hrec]

theorem utf8Decode_encode (cps : List Nat) (hv : cps.all isScalar = true) :
    ∀ enc, utf8Encode cps = some enc → utf8Decode enc = some cps := by
  intro enc henc
  rw [utf8Encode, if_pos hv] at henc
  cases henc
  exact utf8DecodeLoop_encode cps hv _ le_rfl

/-- The last byte of the encoding of a non-space scalar is never the space
byte `0x20` (multi-byte encodings end in a continuation byte `≥ 0x80`). -/
theorem utf8EncodeChar_getLast_ne_space (cp : Nat) (hcp : cp ≠ 32) :
    ∀ x ∈ (utf8EncodeChar cp).getLast?, x ≠ 32 := by
  intro x hx
  unfold utf8EncodeChar at hx
  split at hx
  · simp at hx
    omega
  · split at hx
    · simp at hx
      omega
    · split at hx <;>
      · simp at hx
        omega

theorem flatten_map_getLast_ne_space (cps : List Nat)
    (h : ∀ x ∈ cps.getLast?, x ≠ 32) :
    ∀ x ∈ (cps.map utf8EncodeChar).flatten.getLast?, x ≠ 32 := by
  induction cps with
  | nil => simp
  | cons c cs ih =>
    intro x hx
    rw [List.map_cons, List.flatten_cons] at hx
    rcases em ((cs.map utf8EncodeChar).flatten = []) with hnil | hnenil
    · have hcs : cs = [] := by
        cases hc : cs with
        | nil => rfl
        | cons d ds =>
          exfalso
          rw [hc, List.map_cons, List.flatten_cons] at hnil
          rcases List.append_eq_nil.mp hnil with ⟨h1, -⟩
          have hp := utf8EncodeChar_length_pos d
          rw [h1] at hp
          simp at hp
      rw [hnil, List.append_nil] at hx
      exact utf8EncodeChar_getLast_ne_space c (h c (by rw [hcs]; simp)) x hx
    · rw [List.getLast?_append_of_ne_nil _ hnenil] at hx
      refine ih ?_ x hx
      intro y hy
      refine h y ?_
      cases hc : cs with
      | nil =>
        rw [hc] at hnenil
        simp at hnenil
      | cons d ds =>
        rw [List.getLast?_cons_cons]
        rwa [hc] at hy

theorem toBytesSigned_eq (v : Int) (s : Nat)
    (h : -(256 ^ s : Int) ≤ 2 * v ∧ 2 * v < (256 ^ s : Int)) :
    toBytesSigned v s = some (beBytes (v % (256 ^ s : Int)).toNat s) := by
  rw [toBytesSigned, if_pos h]

theorem fromBytesSigned_beBytes (v : Int) (s : Nat)
    (h : -(256 ^ s : Int) ≤ 2 * v ∧ 2 * v < (256 ^ s : Int)) :
    fromBytesSigned (beBytes (v % (256 ^ s : Int)).toNat s) = v := by
  obtain ⟨hlo, hhi⟩ := h
  have hmpos : (0 : Int) < (256 ^ s : Int) := by positivity
  have hemod_nonneg : 0 ≤ v % (256 ^ s : Int) := Int.emod_nonneg v (by omega)
  have hemod_lt : v % (256 ^ s : Int) < (256 ^ s : Int) := Int.emod_lt_of_pos v hmpos
  set nn := (v % (256 ^ s : Int)).toNat with hnn
  have hcastnn : (nn : Int) = v % (256 ^ s : Int) := Int.toNat_of_nonneg hemod_nonneg
  have hcastpow : ((256 ^ s : Nat) : Int) = (256 ^ s : Int) := by push_cast; ring
  have hnnlt : nn < 256 ^ s := by
    have hlt : (nn : Int) < ((256 ^ s : Nat) : Int) := by
      rw [hcastnn, hcastpow]
      exact hemod_lt
    exact_mod_cast hlt
  have hbe : beNat (beBytes nn s) = nn := beNat_beBytes nn s hnnlt
  have hlen : (beBytes nn s).length = s := beBytes_length nn s
  have hval : (nn : Int) = v ∨ (nn : Int) = v + (256 ^ s : Int) := by
    rcases le_or_lt 0 v with hv | hv
    · left
      rw [hcastnn, Int.emod_eq_of_lt hv (by omega)]
    · right
      rw [hcastnn]
      have hrw : v % (256 ^ s : Int) = (v + (256 ^ s : Int) * 1) % (256 ^ s : Int) := by
        rw [Int.add_mul_emod_self_left]
      rw [hrw, mul_one]
      rw [Int.emod_eq_of_lt (by omega) (by omega)]
  rw [fromBytesSigned, hlen, hbe]
  rcases hval with hval | hval
  · rw [if_pos (by omega)]
    omega
  · rw [if_neg (by omega)]
    omega

theorem encodesExact_std (code : Nat) (dt : DTypeDef) (v : Value) (L s : Nat)
    (hdt : stdDTYPE code = some dt) (hclean : ValueClean code v)
    (hL : lenOf dt v = some L) (hLs : L ≤ s) : EncodesExact dt v s := by
  match code, v with
  | 0, .text cps =>
    obtain ⟨hv, hns⟩ := hclean
    cases hdt
    simp only [lenOf, dtypeAscii] at hL
    cases hL
    refine ⟨cps ++ List.replicate (s - cps.length) 32, ?_, ?_, ?_⟩
    · simp only [dtypeAscii]
      rw [if_pos hv]
    · rw [List.length_append, List.length_replicate]
      omega
    · simp only [dtypeAscii]
      rw [rstripSpaces_append_replicate, rstripSpaces_eq_self cps hns]
  | 1, .text cps =>
    obtain ⟨hv, hns⟩ := hclean
    cases hdt
    simp only [lenOf, dtypeUtf8, utf8Encode, if_pos hv, Option.map_some'] at hL
    cases hL
    refine ⟨(cps.map utf8EncodeChar).flatten ++
      List.replicate (s - (cps.map utf8EncodeChar).flatten.length) 32, ?_, ?_, ?_⟩
    · simp only [dtypeUtf8, utf8Encode]
      rw [if_pos hv]
      rfl
    · rw [List.length_append, List.length_replicate]
      omega
    · simp only [dtypeUtf8]
      rw [rstripSpaces_append_replicate,
        rstripSpaces_eq_self _ (flatten_map_getLast_ne_space cps hns)]
      rw [show utf8Decode (cps.map utf8EncodeChar).flatten = some cps from
        utf8Decode_encode cps hv _ (by rw [utf8Encode, if_pos hv])]
      rfl
  | 10, .int i =>
    cases hdt
    simp only [lenOf, dtypeInt] at hL
    cases hL
    have hnn : 0 ≤ i := hclean
    have hfit : i.natAbs < 256 ^ s := (pyByteLength_le_iff _ s).mp hLs
    have hpos : 0 < (256 : Nat) ^ s := pow_pos (by norm_num) s
    have hilt : i < ((256 ^ s : Nat) : Int) := by omega
    refine ⟨beBytes i.toNat s, ?_, beBytes_length _ _, ?_⟩
    · simp only [dtypeInt]
      rw [if_pos ⟨hclean, hilt⟩]
    · simp only [dtypeInt]
      rw [beNat_beBytes _ _ (lt_of_le_of_lt (by omega : i.toNat ≤ i.natAbs) hfit)]
      have hti : ((i.toNat : Nat) : Int) = i := by omega
      rw [hti]
  | 11, .int i =>
    cases hdt
    simp only [lenOf, dtypeSignedInt] at hL
    cases hL
    have hfit : 2 * i.natAbs < 256 ^ s := (pyByteLength_le_iff _ s).mp hLs
    have hcast : ((256 ^ s : Nat) : Int) = (256 ^ s : Int) := by push_cast; ring
    have hrange : -(256 ^ s : Int) ≤ 2 * i ∧ 2 * i < (256 ^ s : Int) := by
      constructor <;> omega
    refine ⟨beBytes (i % (256 ^ s : Int)).toNat s, ?_, beBytes_length _ _, ?_⟩
    · simp only [dtypeSignedInt]
      exact toBytesSigned_eq i s hrange
    · simp only [dtypeSignedInt]
      rw [fromBytesSigned_beBytes i s hrange]

theorem bsLoop_left_char {K : Type} (lt : K → K → Bool) (f : Nat → K) (x : K)
    (n : Nat)
    (hmono : ∀ i j : Nat, i ≤ j → j < n → lt (f j) x = true → lt (f i) x = true) :
    ∀ fuel lo hi, hi - lo ≤ fuel → lo ≤ hi → hi ≤ n →
    (∀ j, j < lo → lt (f j) x = true) →
    (∀ j, hi ≤ j → j < n → lt (f j) x = false) →
    lo ≤ bsLoop lt f x true fuel lo hi ∧ bsLoop lt f x true fuel lo hi ≤ hi ∧
      (∀ j, j < bsLoop lt f x true fuel lo hi → lt (f j) x = true) ∧
      (∀ j, bsLoop lt f x true fuel lo hi ≤ j → j < n → lt (f j) x = false) := by
  intro fuel
  induction fuel with
  | zero =>
    intro lo hi hfuel hlh hhn hlo hhi
    have : lo = hi := by omega
    subst this
    exact ⟨le_rfl, le_rfl, hlo, hhi⟩
  | succ fuel ih =>
    intro lo hi hfuel hlh hhn hlo hhi
    rw [bsLoop]
    split
    next hlt =>
      simp only [Bool.true_and, Bool.not_true, Bool.false_and, Bool.or_false]
      have hmidlt : (lo + hi) / 2 < hi := by omega
      have hmidge : lo ≤ (lo + hi) / 2 := by omega
      split
      next hcond =>
        obtain ⟨g1, g2, g3, g4⟩ := ih ((lo + hi) / 2 + 1) hi (by omega) (by omega)
          hhn (fun j hj => hmono j ((lo + hi) / 2) (by omega) (by omega) hcond) hhi
        exact ⟨by omega, g2, g3, g4⟩
      next hcond =>
        rw [Bool.not_eq_true] at hcond
        have hhi2 : ∀ j, (lo + hi) / 2 ≤ j → j < n → lt (f j) x = false := by
          intro j hj hjn
          by_contra hc
          rw [Bool.not_eq_false] at hc
          have := hmono ((lo + hi) / 2) j hj (by omega) hc
          rw [hcond] at this
          cases this
        obtain ⟨g1, g2, g3, g4⟩ := ih lo ((lo + hi) / 2) (by omega) (by omega)
          (by omega) hlo hhi2
        exact ⟨g1, by omega, g3, g4⟩
    next hlt =>
      have : lo = hi := by omega
      subst this
      exact ⟨le_rfl, le_rfl, hlo, hhi⟩

theorem bsLoop_right_char {K : Type} (lt : K → K → Bool) (f : Nat → K) (x : K)
    (n : Nat)
    (hmono : ∀ i j : Nat, i ≤ j → j < n → lt x (f i) = true → lt x (f j) = true) :
    ∀ fuel lo hi, hi - lo ≤ fuel → lo ≤ hi → hi ≤ n →
    (∀ j, j < lo → lt x (f j) = false) →
    (∀ j, hi ≤ j → j < n → lt x (f j) = true) →
    lo ≤ bsLoop lt f x false fuel lo hi ∧ bsLoop lt f x false fuel lo hi ≤ hi ∧
      (∀ j, j < bsLoop lt f x false fuel lo hi → lt x (f j) = false) ∧
      (∀ j, bsLoop lt f x false fuel lo hi ≤ j → j < n → lt x (f j) = true) := by
  intro fuel
  induction fuel with
  | zero =>
    intro lo hi hfuel hlh hhn hlo hhi
    have : lo = hi := by omega
    subst this
    exact ⟨le_rfl, le_rfl, hlo, hhi⟩
  | succ fuel ih =>
    intro lo hi hfuel hlh hhn hlo hhi
    rw [bsLoop]
    split
    next hlt =>
      simp only [Bool.false_and, Bool.not_false, Bool.true_and, Bool.false_or]
      have hmidlt : (lo + hi) / 2 < hi := by omega
      have hmidge : lo ≤ (lo + hi) / 2 := by omega
      split
      next hcond =>
        rw [Bool.not_eq_true'] at hcond
        have hlo2 : ∀ j, j < (lo + hi) / 2 + 1 → lt x (f j) = false := by
          intro j hj
          by_contra hc
          rw [Bool.not_eq_false] at hc
          have := hmono j ((lo + hi) / 2) (by omega) (by omega) hc
          rw [hcond] at this
          cases this
        obtain ⟨g1, g2, g3, g4⟩ := ih ((lo + hi) / 2 + 1) hi (by omega) (by omega)
          hhn hlo2 hhi
        exact ⟨by omega, g2, g3, g4⟩
      next hcond =>
        have hcond2 : lt x (f ((lo + hi) / 2)) = true := by
          by_contra hcf
          rw [Bool.not_eq_true] at hcf
          apply hcond
          rw [hcf]
          rfl
        obtain ⟨g1, g2, g3, g4⟩ := ih lo ((lo + hi) / 2) (by omega) (by omega)
          (by omega) hlo (fun j hj hjn => hmono ((lo + hi) / 2) j hj (by omega) hcond2)
        exact ⟨g1, by omega, g3, g4⟩
    next hlt =>
      have : lo = hi := by omega
      subst this
      exact ⟨le_rfl, le_rfl, hlo, hhi⟩

/-- `_binarysearch(..., left=True)` computes the lower bound. -/
theorem binarysearch_left_eq {K : Type} (lt : K → K → Bool) (f : Nat → K)
    (x : K) (n : Nat)
    (hmono : ∀ i j : Nat, i ≤ j → j < n → lt (f j) x = true → lt (f i) x = true) :
    ∃ r : Nat, binarysearch lt f x n true = (r : Int) ∧ r ≤ n ∧
      (∀ j : Nat, j < r → lt (f j) x = true) ∧
      (∀ j : Nat, r ≤ j → j < n → lt (f j) x = false) := by
  obtain ⟨h1, h2, h3, h4⟩ := bsLoop_left_char lt f x n hmono n 0 n (by omega)
    (Nat.zero_le n) le_rfl (by omega) (by intro j h1 h2; omega)
  exact ⟨bsLoop lt f x true n 0 n, by rw [binarysearch]; simp, h2, h3, h4⟩

/-- `_binarysearch(..., left=False)` computes the upper bound minus one. -/
theorem binarysearch_right_eq {K : Type} (lt : K → K → Bool) (f : Nat → K)
    (x : K) (n : Nat)
    (hmono : ∀ i j : Nat, i ≤ j → j < n → lt x (f i) = true → lt x (f j) = true) :
    ∃ r : Nat, binarysearch lt f x n false = (r : Int) - 1 ∧ r ≤ n ∧
      (∀ j : Nat, j < r → lt x (f j) = false) ∧
      (∀ j : Nat, r ≤ j → j < n → lt x (f j) = true) := by
  obtain ⟨h1, h2, h3, h4⟩ := bsLoop_right_char lt f x n hmono n 0 n (by omega)
    (Nat.zero_le n) le_rfl (by omega) (by intro j h1 h2; omega)
  exact ⟨bsLoop lt f x false n 0 n, by rw [binarysearch]; simp, h2, h3, h4⟩

theorem searchModel_first (v : SortedView) (key : Value) (hsort : KeysSorted v)
    (i0 : Nat) (hi0 : i0 < v.n) (hkey : v.getKey (i0 : Int) = key) :
    ∃ r : Nat, searchModel v key true = some (r : Int) ∧ r < v.n ∧
      v.getKey (r : Int) = key ∧ (∀ j : Nat, j < r → v.getKey (j : Int) ≠ key) := by
  have hmono : ∀ i j : Nat, i ≤ j → j < v.n →
      Value.ltb (v.getKey (j : Int)) key = true →
      Value.ltb (v.getKey (i : Int)) key = true :=
    fun i j hij hjn hlt => Value.ltb_le_lt_trans (hsort i j hij hjn) hlt
  obtain ⟨r, hr, hrn, h3, h4⟩ :=
    binarysearch_left_eq Value.ltb (fun i : Nat => v.getKey (i : Int)) key v.n hmono
  have hri0 : r ≤ i0 := by
    by_contra hc
    have := h3 i0 (by omega)
    rw [hkey, Value.ltb_irrefl] at this
    cases this
  have hrltn : r < v.n := by omega
  have hkr : v.getKey (r : Int) = key := by
    have hA := h4 r le_rfl hrltn
    have hB := hsort r i0 hri0 hi0
    rw [hkey] at hB
    exact Value.ltb_antisymm hA hB
  refine ⟨r, ?_, hrltn, hkr, ?_⟩
  · rw [searchModel]
    simp only [hr]
    rw [if_pos hkr]
  · intro j hj hjk
    have := h3 j hj
    rw [hjk, Value.ltb_irrefl] at this
    cases this

theorem searchModel_last (v : SortedView) (key : Value) (hsort : KeysSorted v)
    (i0 : Nat) (hi0 : i0 < v.n) (hkey : v.getKey (i0 : Int) = key) :
    ∃ r : Nat, searchModel v key false = some (r : Int) ∧ r < v.n ∧
      v.getKey (r : Int) = key ∧
      (∀ j : Nat, r < j → j < v.n → v.getKey (j : Int) ≠ key) := by
  have hmono : ∀ i j : Nat, i ≤ j → j < v.n →
      Value.ltb key (v.getKey (i : Int)) = true →
      Value.ltb key (v.getKey (j : Int)) = true :=
    fun i j hij hjn hlt => Value.ltb_lt_le_trans hlt (hsort i j hij hjn)
  obtain ⟨u, hu, hun, h3, h4⟩ :=
    binarysearch_right_eq Value.ltb (fun i : Nat => v.getKey (i : Int)) key v.n hmono
  have hi0u : i0 < u := by
    by_contra hc
    have := h4 i0 (by omega) hi0
    rw [hkey, Value.ltb_irrefl] at this
    cases this
  have hu1 : 1 ≤ u := by omega
  have hcast : (u : Int) - 1 = ((u - 1 : Nat) : Int) := by omega
  have hkr : v.getKey ((u - 1 : Nat) : Int) = key := by
    have hA := h3 (u - 1) (by omega)
    have hB := hsort i0 (u - 1) (by omega) (by omega)
    rw [hkey] at hB
    exact Value.ltb_antisymm hB hA
  refine ⟨u - 1, ?_, by omega, hkr, ?_⟩
  · rw [searchModel]
    simp only [hu, hcast]
    rw [if_pos hkr]
  · intro j hj hjn hjk
    have := h4 j (by omega) hjn
    rw [hjk, Value.ltb_irrefl] at this
    cases this

/-- If every key read (at every index) equals `key`, the `getall` loop
never terminates, whatever the fuel. -/
theorem getallLoop_diverges (v : SortedView) (key : Value)
    (hconst : ∀ i : Int, v.getKey i = key) :
    ∀ fuel recnum acc, getallLoop v key fuel recnum acc = none := by
  intro fuel
  induction fuel with
  | zero => intro recnum acc; rfl
  | succ fuel ih =>
    intro recnum acc
    rw [getallLoop]
    rw [if_pos (hconst (recnum + 1)).symm]
    exact ih _ _

theorem headD_eq_getD {α : Type} (d : α) (r : List α) : r.headD d = r.getD 0 d := by
  cases r <;> rfl

theorem tail_getD {α : Type} (d : α) (r : List α) (i : Nat) :
    r.tail.getD i d = r.getD (i + 1) d := by
  cases r <;> rfl

theorem zipColsF_rect {α : Type} (d : α) :
    ∀ (k fuel : Nat) (rows : List (List α)), rows ≠ [] →
    (∀ r ∈ rows, r.length = k) → k ≤ fuel →
    zipColsF d fuel rows =
      (List.range k).map (fun i => rows.map (fun r => r.getD i d)) := by
  intro k
  induction k with
  | zero =>
    intro fuel rows hne hlen hfuel
    obtain ⟨r0, rest, hr⟩ := List.exists_cons_of_ne_nil hne
    have h0 : r0.length = 0 := hlen r0 (by rw [hr]; exact List.mem_cons_self r0 rest)
    have h0n : r0 = [] := List.length_eq_zero.mp h0
    cases fuel with
    | zero => rfl
    | succ fuel =>
      rw [zipColsF]
      rw [if_neg (by rw [hr]; simp), if_pos (by rw [hr, h0n]; simp)]
      simp
  | succ k ih =>
    intro fuel rows hne hlen hfuel
    cases fuel with
    | zero => omega
    | succ fuel =>
      have hnoemp : rows.any (fun r => r.isEmpty) = false := by
        rw [← Bool.not_eq_true, List.any_eq_true]
        rintro ⟨r, hr, hremp⟩
        have hl := hlen r hr
        rw [List.isEmpty_eq_true] at hremp
        rw [hremp] at hl
        simp at hl
      rw [zipColsF, if_neg (by simpa using hne), if_neg (by simp [hnoemp])]
      rw [ih fuel (rows.map List.tail) (by simpa using hne)
        (by
          intro r hr
          rw [List.mem_map] at hr
          obtain ⟨r0, hr0, hr0t⟩ := hr
          have hl := hlen r0 hr0
          rw [← hr0t, List.length_tail]
          omega)
        (by omega)]
      rw [List.range_succ_eq_map, List.map_cons, List.map_map]
      refine congrArg₂ List.cons ?_ ?_
      · congr 1
        funext r
        exact headD_eq_getD d r
      · congr 1
        funext i
        simp only [Function.comp_apply, List.map_map]
        congr 1
        funext r
        simp only [Function.comp_apply]
        exact tail_getD d r i

/-- For nonempty rectangular data, `zip(*rows)` is the list of `k` columns. -/
theorem zipCols_rect {α : Type} (d : α) (k : Nat) (rows : List (List α))
    (hne : rows ≠ []) (hlen : ∀ r ∈ rows, r.length = k) :
    zipCols d rows =
      (List.range k).map (fun i => rows.map (fun r => r.getD i d)) := by
  rw [zipCols]
  refine zipColsF_rect d k _ rows hne hlen ?_
  obtain ⟨r0, rest, hr⟩ := List.exists_cons_of_ne_nil hne
  rw [hr]
  have := hlen r0 (by rw [hr]; exact List.mem_cons_self r0 rest)
  simp [this]

theorem mapM_option_eq_some {α β : Type} (f : α → Option β) :
    ∀ (l : List α) (l2 : List β),
    l.mapM f = some l2 ↔ List.Forall₂ (fun a b => f a = some b) l l2 := by
  intro l
  induction l with
  | nil =>
    intro l2
    constructor
    · intro h
      cases hl2 : l2 with
      | nil => exact List.Forall₂.nil
      | cons b bs =>
        rw [List.mapM_nil] at h
        rw [hl2] at h
        cases h
    · intro h
      cases h
      rfl
  | cons a as ih =>
    intro l2
    rw [List.mapM_cons]
    constructor
    · intro h
      cases hfa : f a with
      | none => rw [hfa] at h; cases h
      | some b =>
        rw [hfa] at h
        cases hrest : as.mapM f with
        | none => rw [hrest] at h; cases h
        | some bs =>
          rw [hrest] at h
          simp only [Option.bind_some, Option.bind_eq_bind, Option.pure_def] at h
          cases h
          exact List.Forall₂.cons hfa ((ih bs).mp hrest)
    · intro h
      cases h with
      | cons hab hrest =>
        rw [hab, (ih _).mpr hrest]
        rfl

theorem foldl_max_init_le (l : List Nat) : ∀ a, a ≤ l.foldl Nat.max a := by
  induction l with
  | nil => intro a; exact le_rfl
  | cons b bs ih =>
    intro a
    rw [List.foldl_cons]
    exact le_trans (Nat.le_max_left a b) (ih (Nat.max a b))

theorem foldl_max_ge (l : List Nat) : ∀ (a x : Nat), x ∈ l → x ≤ l.foldl Nat.max a := by
  induction l with
  | nil => intro a x hx; cases hx
  | cons b bs ih =>
    intro a x hx
    rw [List.foldl_cons]
    rcases List.mem_cons.mp hx with rfl | hx
    · exact le_trans (Nat.le_max_right a x) (foldl_max_init_le bs (Nat.max a x))
    · exact ih (Nat.max a b) x hx

theorem foldl_max_lt (B : Nat) : ∀ (l : List Nat) (a : Nat), a < B →
    (∀ x ∈ l, x < B) → l.foldl Nat.max a < B := by
  intro l
  induction l with
  | nil => intro a ha hl; exact ha
  | cons b bs ih =>
    intro a ha hl
    rw [List.foldl_cons]
    refine ih (Nat.max a b) ?_ (fun x hx => hl x (List.mem_cons_of_mem b hx))
    exact Nat.max_lt.mpr ⟨ha, hl b (List.mem_cons_self b bs)⟩

theorem forall2_mem_right {α β : Type} {R : α → β → Prop} :
    ∀ {l : List α} {l2 : List β}, List.Forall₂ R l l2 → ∀ b ∈ l2, ∃ a ∈ l, R a b := by
  intro l l2 h
  induction h with
  | nil => intro b hb; cases hb
  | cons hab htail ih =>
    intro b hb
    rcases List.mem_cons.mp hb with rfl | hb2
    · exact ⟨_, List.mem_cons_self _ _, hab⟩
    · obtain ⟨a, ha, hR⟩ := ih b hb2
      exact ⟨a, List.mem_cons_of_mem _ ha, hR⟩

theorem forall2_mem_left {α β : Type} {R : α → β → Prop} :
    ∀ {l : List α} {l2 : List β}, List.Forall₂ R l l2 → ∀ a ∈ l, ∃ b ∈ l2, R a b := by
  intro l l2 h
  induction h with
  | nil => intro a ha; cases ha
  | cons hab htail ih =>
    intro a ha
    rcases List.mem_cons.mp ha with rfl | ha2
    · exact ⟨_, List.mem_cons_self _ _, hab⟩
    · obtain ⟨b, hb, hR⟩ := ih a ha2
      exact ⟨b, List.mem_cons_of_mem _ hb, hR⟩

/-- `computeSize` on a function-length codec over a nonempty column: it
succeeds, and the result bounds every required length. -/
theorem computeSize_fn (dt : DTypeDef) (f : Value → Option Nat)
    (hdt : dt.lenRule = .fn f) (col : List Value) (hne : col ≠ [])
    (hsome : ∀ v ∈ col, ∃ L, f v = some L) :
    ∃ s, computeSize dt col = some s ∧
      (∀ v ∈ col, ∀ L, f v = some L → L ≤ s) ∧
      (∀ B, 0 < B → (∀ v ∈ col, ∀ L, f v = some L → L < B) → s < B) := by
  have hex : ∃ Ls, col.mapM f = some Ls := by
    clear hne
    induction col with
    | nil => exact ⟨[], rfl⟩
    | cons v vs ih =>
      obtain ⟨L, hL⟩ := hsome v (List.mem_cons_self v vs)
      obtain ⟨Ls, hLs⟩ := ih (fun w hw => hsome w (List.mem_cons_of_mem v hw))
      exact ⟨L :: Ls, by rw [List.mapM_cons, hL, hLs]; rfl⟩
  obtain ⟨Ls, hLs⟩ := hex
  have hfa := (mapM_option_eq_some f col Ls).mp hLs
  have hLs_ne : Ls ≠ [] := by
    intro hcontra
    subst hcontra
    cases hfa
    exact hne rfl
  obtain ⟨L0, Lrest, hL0⟩ := List.exists_cons_of_ne_nil hLs_ne
  subst hL0
  refine ⟨(L0 :: Lrest).foldl Nat.max 0, ?_, ?_, ?_⟩
  · rw [computeSize, hdt]
    simp only [hLs]
  · intro v hv L hL
    obtain ⟨b, hb, hRb⟩ := forall2_mem_left hfa v hv
    rw [hL] at hRb
    cases hRb
    exact foldl_max_ge _ 0 L hb
  · intro B hB hlt
    refine foldl_max_lt B _ 0 hB ?_
    intro x hx
    obtain ⟨a, ha, hRa⟩ := forall2_mem_right hfa x hx
    exact hlt a ha x hRa

/-- `computeSizes` succeeds when every column's width computation does,
returning one width per column. -/
theorem computeSizes_eq (dtype : Nat → Option DTypeDef) (codes : List Nat) :
    ∀ (cols : List (List Value)) (i : Nat),
    (∀ j : Nat, j < cols.length → ∃ code dt s,
        codes[i + j]? = some code ∧ dtype code = some dt ∧
        computeSize dt (cols.getD j []) = some s) →
    ∃ sizes, computeSizes dtype codes cols i = some sizes ∧
      sizes.length = cols.length ∧
      (∀ j : Nat, j < cols.length → ∀ code dt,
        codes[i + j]? = some code → dtype code = some dt →
        computeSize dt (cols.getD j []) = some (sizes.getD j 0)) := by
  intro cols
  induction cols with
  | nil =>
    intro i hyp
    exact ⟨[], rfl, rfl, fun j hj => absurd hj (by simp)⟩
  | cons col cols ih =>
    intro i hyp
    obtain ⟨code0, dt0, s0, hc0, hd0, hs0⟩ := hyp 0 (by simp)
    obtain ⟨sizes, hsz, hlen, hspec⟩ := ih (i + 1) (by
      intro j hj
      obtain ⟨c, dt, s, h1, h2, h3⟩ := hyp (j + 1) (by simpa using Nat.succ_lt_succ hj)
      refine ⟨c, dt, s, ?_, h2, ?_⟩
      · rw [← h1]
        congr 1
        omega
      · simpa using h3)
    rw [Nat.add_zero] at hc0
    rw [List.getD_cons_zero] at hs0
    refine ⟨s0 :: sizes, ?_, by simpa using hlen, ?_⟩
    · simp [computeSizes, hc0, hd0, hs0, hsz]
    · intro j hj code dt hcode hdt
      cases j with
      | zero =>
        rw [Nat.add_zero] at hcode
        rw [hcode] at hc0
        cases hc0
        rw [hdt] at hd0
        cases hd0
        simpa using hs0
      | succ j =>
        have hj2 : j < cols.length := by simpa using hj
        have hsp := hspec j hj2 code dt (by rw [← hcode]; congr 1; omega) hdt
        simpa using hsp

/-- `descBytes` produces the concatenated field descriptors when codes and
sizes are in range. -/
theorem descBytes_eq (codes : List Nat) :
    ∀ (ss : List Nat) (i : Nat),
    (∀ c ∈ codes, c < 256) → (∀ s ∈ ss, s < 65536) → i + ss.length ≤ codes.length →
    descBytes codes ss i =
      some ((((codes.drop i).zip ss).map
        (fun p => beBytes p.1 1 ++ beBytes p.2 2)).flatten) := by
  intro ss
  induction ss with
  | nil =>
    intro i hc hs hlen
    simp [descBytes]
  | cons s rest ih =>
    intro i hc hs hlen
    have hi : i < codes.length := by
      have := hlen
      simp only [List.length_cons] at this
      omega
    have hcb : toBytesBE codes[i] 1 = some (beBytes codes[i] 1) :=
      toBytesBE_eq _ _ (by simpa using hc codes[i] (List.getElem_mem hi))
    have hsb : toBytesBE s 2 = some (beBytes s 2) :=
      toBytesBE_eq _ _ (by
        have := hs s (List.mem_cons_self s rest)
        norm_num
        omega)
    have hrest := ih (i + 1) hc (fun x hx => hs x (List.mem_cons_of_mem s hx))
      (by simp only [List.length_cons] at hlen; omega)
    rw [List.drop_eq_getElem_cons hi, List.zip_cons_cons, List.map_cons,
      List.flatten_cons]
    simp [descBytes, List.getElem?_eq_getElem hi, hcb, hsb, hrest,
      List.append_assoc]

/-- A read of `pre ++ post` splits into a read of `pre` and a read of
`post` right after it. -/
theorem readAt_split (bs pre post : List Nat) (pos : Nat)
    (hread : readAt bs pos (pre ++ post).length = pre ++ post) :
    readAt bs pos pre.length = pre ∧
    readAt bs (pos + pre.length) post.length = post := by
  rw [readAt] at hread
  constructor
  · rw [readAt]
    have h1 : (bs.drop pos).take pre.length =
        ((bs.drop pos).take (pre ++ post).length).take pre.length := by
      rw [List.take_take]
      congr 1
      rw [List.length_append]
      omega
    rw [h1, hread]
    exact List.take_left' rfl
  · rw [readAt]
    have h2 : bs.drop pos = (pre ++ post) ++ bs.drop (pos + (pre ++ post).length) := by
      conv_lhs => rw [← List.take_append_drop (pre ++ post).length (bs.drop pos)]
      rw [List.drop_drop, hread]
    rw [← List.drop_drop, h2, List.append_assoc, List.drop_left' rfl]
    exact List.take_left' rfl

/-- A record whose fields all encode exactly produces `encodeRow` output of
length the summed widths, and `_get_data` at any position holding that
output decodes it back. -/
theorem encodeRow_ok (dtype : Nat → Option DTypeDef) (codes sizes : List Nat) :
    ∀ (row : Rec) (i : Nat),
    i + row.length ≤ codes.length → i + row.length ≤ sizes.length →
    RowOk dtype codes sizes row i →
    ∃ out, encodeRow dtype codes sizes row i = some out ∧
      out.length = ((sizes.drop i).take row.length).sum ∧
      ∀ (bs : List Nat) (pos : Nat), readAt bs pos out.length = out →
        getDataAt dtype ((codes.drop i).zip ((sizes.drop i).take row.length)) bs pos =
          some (row, pos + out.length) := by
  intro row
  induction row with
  | nil =>
    intro i hic his hok
    refine ⟨[], rfl, by simp, ?_⟩
    intro bs pos hread
    simp only [List.length_nil, List.take_zero, List.zip_nil_right]
    rw [getDataAt]
    simp
  | cons v vs ih =>
    intro i hic his hok
    obtain ⟨dt, e, hdt, henc, hel, hdec⟩ := hok 0 (by simp)
    rw [List.getD_cons_zero] at henc hdec
    rw [Nat.add_zero] at hdt henc hel
    have hi_c : i < codes.length := by simp only [List.length_cons] at hic; omega
    have hi_s : i < sizes.length := by simp only [List.length_cons] at his; omega
    have hcd : codes.getD i 0 = codes[i] := by
      rw [List.getD_eq_getElem?_getD, List.getElem?_eq_getElem hi_c]
      rfl
    have hsd : sizes.getD i 0 = sizes[i] := by
      rw [List.getD_eq_getElem?_getD, List.getElem?_eq_getElem hi_s]
      rfl
    rw [hcd] at hdt
    rw [hsd] at henc hel
    obtain ⟨out2, hout2, hlen2, hdec2⟩ := ih (i + 1)
      (by simp only [List.length_cons] at hic; omega)
      (by simp only [List.length_cons] at his; omega)
      (by
        intro j hj
        obtain ⟨dt2, e2, h1, h2, h3, h4⟩ := hok (j + 1)
          (by simp only [List.length_cons]; omega)
        have harith : i + (j + 1) = i + 1 + j := by omega
        rw [harith] at h1 h2 h3
        rw [List.getD_cons_succ] at h2 h4
        exact ⟨dt2, e2, h1, h2, h3, h4⟩)
    refine ⟨e ++ out2, ?_, ?_, ?_⟩
    · rw [encodeRow, List.getElem?_eq_getElem hi_c, List.getElem?_eq_getElem hi_s]
      simp [hdt, henc, hout2]
    · rw [List.length_append, hel, hlen2, List.drop_eq_getElem_cons hi_s,
        List.length_cons, List.take_succ_cons, List.sum_cons]
    · intro bs pos hread
      obtain ⟨hread1, hread2⟩ := readAt_split bs e out2 pos hread
      rw [List.drop_eq_getElem_cons hi_s, List.length_cons, List.take_succ_cons,
        List.drop_eq_getElem_cons hi_c, List.zip_cons_cons, getDataAt]
      have hbytes : readAt bs pos sizes[i] = e := by rw [← hel]; exact hread1
      rw [hbytes, hdt]
      simp [hdec, hdec2 bs (pos + e.length) hread2, List.length_append, Nat.add_assoc]

/-- Decoding `rows.length` records from a region that starts with the
concatenation of their exact encodings. -/
theorem readRecords_go (dtype : Nat → Option DTypeDef) (fields : List (Nat × Nat))
    (bs : List Nat) :
    ∀ (rows : List Rec) (outs : List (List Nat)) (pos : Nat),
    List.Forall₂ (fun (row : Rec) (out : List Nat) =>
      ∀ p : Nat, readAt bs p out.length = out →
        getDataAt dtype fields bs p = some (row, p + out.length)) rows outs →
    readAt bs pos outs.flatten.length = outs.flatten →
    readRecords dtype fields bs pos rows.length = some rows := by
  intro rows outs pos hfa
  induction hfa generalizing pos with
  | nil =>
    intro hread
    rfl
  | @cons row out rows2 outs2 hstep htail ih =>
    intro hread
    rw [List.flatten_cons] at hread
    obtain ⟨hread1, hread2⟩ := readAt_split bs out outs2.flatten pos hread
    rw [List.length_cons, readRecords, hstep pos hread1]
    simp [ih (pos + out.length) hread2]

/-- A clean value's code is registered with a function-length rule that
succeeds on every clean value of that code. -/
theorem valueClean_dtype (code : Nat) (v : Value) (h : ValueClean code v) :
    ∃ dt f, stdDTYPE code = some dt ∧ dt.lenRule = .fn f ∧
      (∀ w, ValueClean code w → ∃ L, f w = some L) ∧
      (∀ w L, f w = some L → lenOf dt w = some L) := by
  match code, v with
  | 0, .text cps =>
    refine ⟨dtypeAscii, _, rfl, rfl, ?_, fun w L hL => hL⟩
    intro w hw
    match w, hw with
    | .text cps2, _ => exact ⟨cps2.length, rfl⟩
  | 1, .text cps =>
    refine ⟨dtypeUtf8, _, rfl, rfl, ?_, fun w L hL => hL⟩
    intro w hw
    match w, hw with
    | .text cps2, hw2 =>
      obtain ⟨hv2, -⟩ := hw2
      exact ⟨(cps2.map utf8EncodeChar).flatten.length, by
        simp only [utf8Encode, if_pos hv2, Option.map_some']⟩
  | 10, .int i =>
    refine ⟨dtypeInt, _, rfl, rfl, ?_, fun w L hL => hL⟩
    intro w hw
    match w, hw with
    | .int i2, _ => exact ⟨pyByteLength i2.natAbs, rfl⟩
  | 11, .int i =>
    refine ⟨dtypeSignedInt, _, rfl, rfl, ?_, fun w L hL => hL⟩
    intro w hw
    match w, hw with
    | .int i2, _ => exact ⟨pyByteLength (2 * i2.natAbs), rfl⟩

/-- Build a successful `mapM` from per-element successes. -/
theorem mapM_exists {α β : Type} (f : α → Option β) (Q : α → β → Prop) :
    ∀ l : List α, (∀ a ∈ l, ∃ b, f a = some b ∧ Q a b) →
    ∃ l2, l.mapM f = some l2 ∧ List.Forall₂ Q l l2 ∧ l2.length = l.length := by
  intro l
  induction l with
  | nil => intro h; exact ⟨[], rfl, List.Forall₂.nil, rfl⟩
  | cons a as ih =>
    intro h
    obtain ⟨b, hb, hQ⟩ := h a (List.mem_cons_self a as)
    obtain ⟨l2, hl2, hfa, hlen⟩ := ih (fun x hx => h x (List.mem_cons_of_mem a hx))
    refine ⟨b :: l2, ?_, List.Forall₂.cons hQ hfa, by simp [hlen]⟩
    rw [List.mapM_cons, hb, hl2]
    rfl

theorem descConcat_length (pairs : List (Nat × Nat)) :
    (descConcat pairs).length = 3 * pairs.length := by
  induction pairs with
  | nil => rfl
  | cons p ps ih =>
    rw [descConcat, List.map_cons, List.flatten_cons, List.length_append]
    rw [descConcat] at ih
    rw [ih, List.length_append, beBytes_length, beBytes_length, List.length_cons]
    ring

theorem descConcat_drop (pairs : List (Nat × Nat)) :
    ∀ (i : Nat), i < pairs.length →
    (descConcat pairs).drop (3 * i) =
      beBytes (pairs.getD i (0, 0)).1 1 ++ (beBytes (pairs.getD i (0, 0)).2 2 ++
        descConcat (pairs.drop (i + 1))) := by
  induction pairs with
  | nil => intro i hi; cases hi
  | cons p ps ih =>
    intro i hi
    cases i with
    | zero =>
      rw [Nat.mul_zero, List.drop_zero, descConcat, List.map_cons, List.flatten_cons,
        List.getD_cons_zero]
      rw [List.append_assoc]
      rfl
    | succ i =>
      have hi2 : i < ps.length := by simpa using hi
      have h3 : 3 * (i + 1) = (beBytes p.1 1 ++ beBytes p.2 2).length + 3 * i := by
        rw [List.length_append, beBytes_length, beBytes_length]
        ring
      rw [descConcat, List.map_cons, List.flatten_cons, h3, List.drop_append]
      rw [List.getD_cons_succ, List.drop_succ_cons]
      exact ih i hi2

theorem range_map_getD {α : Type} (d : α) (l : List α) :
    (List.range l.length).map (fun i => l.getD i d) = l := by
  induction l with
  | nil => rfl
  | cons a as ih =>
    rw [List.length_cons, List.range_succ_eq_map, List.map_cons, List.map_map]
    refine congrArg₂ List.cons rfl ?_
    rw [show ((fun i => (a :: as).getD i d) ∘ Nat.succ) = fun i => as.getD i d by
      funext i
      simp only [Function.comp_apply]
      exact List.getD_cons_succ]
    exact ih

theorem flatten_length_const (k : Nat) :
    ∀ (ls : List (List Nat)), (∀ x ∈ ls, x.length = k) →
    ls.flatten.length = ls.length * k := by
  intro ls
  induction ls with
  | nil => intro h; simp
  | cons x xs ih =>
    intro h
    rw [List.flatten_cons, List.length_append, h x (List.mem_cons_self x xs),
      ih (fun y hy => h y (List.mem_cons_of_mem x hy)), List.length_cons]
    ring

theorem range_map_getD_lt {α : Type} (d : α) (f : Nat → α) (k j : Nat) (hj : j < k) :
    ((List.range k).map f).getD j d = f j := by
  rw [List.getD_eq_getElem?_getD, List.getElem?_map, List.getElem?_range hj]
  rfl

theorem getElem?_eq_getD {α : Type} (l : List α) (d : α) (j : Nat) (hj : j < l.length) :
    l[j]? = some (l.getD j d) := by
  rw [List.getElem?_eq_getElem hj, List.getD_eq_getElem?_getD,
    List.getElem?_eq_getElem hj]
  rfl

/-- A read of an exact segment of a concatenation. -/
theorem readAt_exact (bs A B C : List Nat) (hbs : bs = A ++ B ++ C) (pos n : Nat)
    (hpos : A.length = pos) (hn : B.length = n) : readAt bs pos n = B := by
  subst hbs
  subst hpos
  subst hn
  rw [readAt, List.append_assoc, List.drop_left' rfl, List.take_left' rfl]

theorem zip_getD (codes sizes : List Nat) (j : Nat) (hj : j < codes.length)
    (hj2 : j < sizes.length) :
    (codes.zip sizes).getD j (0, 0) = (codes.getD j 0, sizes.getD j 0) := by
  have hjz : j < (codes.zip sizes).length := by
    rw [List.length_zip]
    omega
  rw [List.getD_eq_getElem?_getD, List.getElem?_eq_getElem hjz, List.getElem_zip]
  rw [List.getD_eq_getElem?_getD, List.getElem?_eq_getElem hj]
  rw [List.getD_eq_getElem?_getD, List.getElem?_eq_getElem hj2]
  rfl

/-- Parsing a file in the exact layout both writers produce, with arbitrary
leading four bytes `m4`: the magic comparison only decides the
`wrongMagic` warning, the rest of the header is recovered exactly, and the
size check decides the `sizeInconsistent` warning. -/
theorem readHeaderModel_layoutGen (cls : ClsConfig) (isBase : Bool) (ok : Bool)
    (m4 blob codes sizes body bs : List Nat)
    (hbs : bs = m4 ++ beBytes (8 + blob.length) 2 ++
      beBytes (8 + blob.length + 2 + 3 * codes.length) 2 ++ blob ++
      beBytes codes.length 2 ++ descConcat (codes.zip sizes) ++ body)
    (hm4 : m4.length = 4)
    (hok : checkMagicInst cls isBase bs = some ok)
    (hmagic : cls.magic.length = 4)
    (hlen : codes.length = sizes.length)
    (hcodes : ∀ c ∈ codes, c < 256)
    (hsizes : ∀ s ∈ sizes, s < 65536)
    (hreclen : codes.length < 65536)
    (hmo : 8 + blob.length < 65536)
    (hdo : 8 + blob.length + 2 + 3 * codes.length < 65536) :
    readHeaderModel cls isBase bs =
      ((if ok then [] else [Warn.wrongMagic]) ++
        (if sizeCheck ⟨8 + blob.length, 8 + blob.length + 2 + 3 * codes.length,
          blob, codes, sizes⟩ bs.length then [] else [Warn.sizeInconsistent]),
        some ⟨8 + blob.length, 8 + blob.length + 2 + 3 * codes.length,
          blob, codes, sizes⟩) := by
  set moB := beBytes (8 + blob.length) 2 with hmoB
  set doB := beBytes (8 + blob.length + 2 + 3 * codes.length) 2 with hdoB
  set rlB := beBytes codes.length 2 with hrlB
  set D := descConcat (codes.zip sizes) with hD
  have hr_mag : readAt bs 0 4 = m4 :=
    readAt_exact bs [] m4 (moB ++ (doB ++ (blob ++ (rlB ++ (D ++ body)))))
      (by rw [hbs]; simp [List.append_assoc]) 0 4 rfl hm4
  have hr_mo : readAt bs 4 2 = moB :=
    readAt_exact bs m4 moB (doB ++ (blob ++ (rlB ++ (D ++ body))))
      (by rw [hbs]; simp [List.append_assoc]) 4 2 hm4 (beBytes_length _ _)
  have hr_do : readAt bs 6 2 = doB :=
    readAt_exact bs (m4 ++ moB) doB (blob ++ (rlB ++ (D ++ body)))
      (by rw [hbs]; simp [List.append_assoc]) 6 2
      (by rw [List.length_append, hm4, hmoB, beBytes_length]) (beBytes_length _ _)
  have hr_blob : readAt bs 8 blob.length = blob :=
    readAt_exact bs (m4 ++ moB ++ doB) blob (rlB ++ (D ++ body))
      (by rw [hbs]; simp [List.append_assoc]) 8 blob.length
      (by simp [hm4, hmoB, hdoB, beBytes_length]) rfl
  have hr_rl : readAt bs (8 + blob.length) 2 = rlB :=
    readAt_exact bs (m4 ++ moB ++ doB ++ blob) rlB (D ++ body)
      (by rw [hbs]; simp [List.append_assoc]) (8 + blob.length) 2
      (by simp [hm4, hmoB, hdoB, beBytes_length]; omega) (beBytes_length _ _)
  have hdesc_split : ∀ j : Nat, j < codes.length →
      D = D.take (3 * j) ++
        (beBytes (codes.getD j 0) 1 ++ (beBytes (sizes.getD j 0) 2 ++
          descConcat ((codes.zip sizes).drop (j + 1)))) := by
    intro j hj
    conv_lhs => rw [hD, ← List.take_append_drop (3 * j) (descConcat (codes.zip sizes))]
    rw [descConcat_drop (codes.zip sizes) j (by rw [List.length_zip]; omega)]
    rw [zip_getD codes sizes j hj (by omega)]
  have htake_len : ∀ j : Nat, j < codes.length →
      (D.take (3 * j)).length = 3 * j := by
    intro j hj
    rw [hD, List.length_take, descConcat_length, List.length_zip]
    omega
  have hr_code : ∀ j : Nat, j < codes.length →
      readAt bs (8 + blob.length + 2 + 3 * j) 1 = beBytes (codes.getD j 0) 1 := by
    intro j hj
    refine readAt_exact bs (m4 ++ moB ++ doB ++ blob ++ rlB ++ D.take (3 * j))
      (beBytes (codes.getD j 0) 1)
      (beBytes (sizes.getD j 0) 2 ++ descConcat ((codes.zip sizes).drop (j + 1)) ++ body)
      ?_ _ 1 ?_ (beBytes_length _ _)
    · rw [hbs]
      conv_lhs => rw [hdesc_split j hj]
      simp [List.append_assoc]
    · simp [hm4, hmoB, hdoB, hrlB, beBytes_length, htake_len j hj]
      omega
  have hr_size : ∀ j : Nat, j < codes.length →
      readAt bs (8 + blob.length + 2 + 3 * j + 1) 2 = beBytes (sizes.getD j 0) 2 := by
    intro j hj
    refine readAt_exact bs
      (m4 ++ moB ++ doB ++ blob ++ rlB ++ D.take (3 * j) ++ beBytes (codes.getD j 0) 1)
      (beBytes (sizes.getD j 0) 2)
      (descConcat ((codes.zip sizes).drop (j + 1)) ++ body)
      ?_ _ 2 ?_ (beBytes_length _ _)
    · rw [hbs]
      conv_lhs => rw [hdesc_split j hj]
      simp [List.append_assoc]
    · simp [hm4, hmoB, hdoB, hrlB, beBytes_length, htake_len j hj]
      omega
  have h65536 : (256 : Nat) ^ 2 = 65536 := by norm_num
  have hbeNat_mo : beNat (readAt bs 4 2) = 8 + blob.length := by
    rw [hr_mo, hmoB, beNat_beBytes _ _ (by omega)]
  have hbeNat_do : beNat (readAt bs 6 2) =
      8 + blob.length + 2 + 3 * codes.length := by
    rw [hr_do, hdoB, beNat_beBytes _ _ (by omega)]
  have hbeNat_rl : beNat (readAt bs (8 + blob.length) 2) = codes.length := by
    rw [hr_rl, hrlB, beNat_beBytes _ _ (by omega)]
  have hrec_list : (List.range codes.length).map
      (fun i => beNat (readAt bs (8 + blob.length + 2 + 3 * i) 1)) = codes := by
    have h1 : ∀ i ∈ List.range codes.length,
        beNat (readAt bs (8 + blob.length + 2 + 3 * i) 1) = codes.getD i 0 := by
      intro i hi
      rw [List.mem_range] at hi
      have hmem2 : codes.getD i 0 ∈ codes := by
        rw [List.getD_eq_getElem?_getD, List.getElem?_eq_getElem hi]
        exact List.getElem_mem hi
      rw [hr_code i hi, beNat_beBytes _ _ (by simpa using hcodes _ hmem2)]
    rw [List.map_congr_left h1]
    exact range_map_getD 0 codes
  have hsize_list : (List.range codes.length).map
      (fun i => beNat (readAt bs (8 + blob.length + 2 + 3 * i + 1) 2)) = sizes := by
    have h1 : ∀ i ∈ List.range codes.length,
        beNat (readAt bs (8 + blob.length + 2 + 3 * i + 1) 2) = sizes.getD i 0 := by
      intro i hi
      rw [List.mem_range] at hi
      have hmem2 : sizes.getD i 0 ∈ sizes := by
        rw [List.getD_eq_getElem?_getD, List.getElem?_eq_getElem (by omega)]
        exact List.getElem_mem (by omega)
      rw [hr_size i hi, beNat_beBytes _ _ (by rw [h65536]; exact hsizes _ hmem2)]
    rw [List.map_congr_left h1]
    rw [hlen]
    exact range_map_getD 0 sizes
  rw [readHeaderModel, hok]
  simp only [hbeNat_mo, hbeNat_do, hbeNat_rl, hmagic, hrec_list, hsize_list]
  simp only [show ((8 + blob.length : Nat) : Int) - ((4 : Nat) : Int) - 4 =
    (blob.length : Int) from by push_cast; ring]
  rw [if_neg (by omega : ¬((blob.length : Int) < -1))]
  rw [if_neg (by omega : ¬((blob.length : Int) = -1))]
  simp only [Int.toNat_natCast]
  norm_num
  rw [hr_blob]
  rw [if_pos rfl]

/-- Parsing a file in the exact layout both writers produce, starting with
the correct magic bytes: no magic warning, header recovered exactly. -/
theorem readHeaderModel_layout (cls : ClsConfig) (isBase : Bool)
    (blob codes sizes body bs : List Nat)
    (hbs : bs = cls.magic ++ beBytes (8 + blob.length) 2 ++
      beBytes (8 + blob.length + 2 + 3 * codes.length) 2 ++ blob ++
      beBytes codes.length 2 ++ descConcat (codes.zip sizes) ++ body)
    (hmagic : cls.magic.length = 4)
    (hlen : codes.length = sizes.length)
    (hcodes : ∀ c ∈ codes, c < 256)
    (hsizes : ∀ s ∈ sizes, s < 65536)
    (hreclen : codes.length < 65536)
    (hmo : 8 + blob.length < 65536)
    (hdo : 8 + blob.length + 2 + 3 * codes.length < 65536) :
    readHeaderModel cls isBase bs =
      ((if sizeCheck ⟨8 + blob.length, 8 + blob.length + 2 + 3 * codes.length,
          blob, codes, sizes⟩ bs.length then [] else [Warn.sizeInconsistent]),
        some ⟨8 + blob.length, 8 + blob.length + 2 + 3 * codes.length,
          blob, codes, sizes⟩) := by
  have hm4 : cls.magic ≠ [] := by
    intro hc
    rw [hc] at hmagic
    cases hmagic
  obtain ⟨m0, mrest, hm⟩ := List.exists_cons_of_ne_nil hm4
  have hr_mag : readAt bs 0 4 = cls.magic :=
    readAt_exact bs [] cls.magic (beBytes (8 + blob.length) 2 ++
      (beBytes (8 + blob.length + 2 + 3 * codes.length) 2 ++ (blob ++
      (beBytes codes.length 2 ++ (descConcat (codes.zip sizes) ++ body)))))
      (by rw [hbs]; simp [List.append_assoc]) 0 4 rfl hmagic
  have hok : checkMagicInst cls isBase bs = some true := by
    cases isBase with
    | false => simp [checkMagicInst, hr_mag]
    | true =>
      rw [checkMagicInst]
      simp only [if_pos]
      rw [hr_mag, hm]
      simp
  have hg := readHeaderModel_layoutGen cls isBase true cls.magic blob codes sizes
    body bs hbs hmagic hok hmagic hlen hcodes hsizes hreclen hmo hdo
  rw [hg]
  rw [if_pos rfl, List.nil_append]

/-- `attr.len` on a file whose length is exactly `dataoffset + m * recsize`. -/
theorem attrLen_exact (info : HeaderInfo) (m : Nat) (h : 0 < info.recsize) :
    attrLen info (info.dataoffset + m * info.recsize) = (m : Int) := by
  rw [attrLen, if_neg (by omega)]
  have hc : ((info.dataoffset + m * info.recsize : Nat) : Int) -
      (info.dataoffset : Int) = (m : Int) * (info.recsize : Int) := by
    push_cast
    ring
  rw [hc, Int.mul_fdiv_cancel]
  exact_mod_cast h.ne.symm

/-- `_sizecheck` passes on a file of exactly `dataoffset + m * recsize` bytes. -/
theorem sizeCheck_exact (info : HeaderInfo) (m : Nat) :
    sizeCheck info (info.dataoffset + m * info.recsize) = true := by
  rw [sizeCheck]
  by_cases h : info.recsize = 0
  · rw [attrLen, if_pos h, h]
    simp
  · rw [attrLen_exact info m (Nat.pos_of_ne_zero h)]
    simp only [beq_iff_eq]
    push_cast
    ring

/-- `write` on clean nonempty data succeeds; parsing the written file
recovers the header exactly and `read()` returns the sorted records. -/
theorem write_roundtrip (cls : ClsConfig) (data : List Rec) (header : List Nat)
    (isBase : Bool) (W : WriteOk cls data header) (hne : data ≠ []) :
    ∃ (bs sizes : List Nat),
      writeModel cls data header = some bs ∧
      sizes.length = cls.record.length ∧
      (∀ j : Nat, j < cls.record.length → ∀ dt,
        stdDTYPE (cls.record.getD j 0) = some dt →
        computeSize dt ((pySorted recLt data).map (fun r => r.getD j (Value.int 0))) =
          some (sizes.getD j 0)) ∧
      readHeaderModel cls isBase bs =
        ([], some ⟨8 + (cls.headerstart ++ header).length,
          8 + (cls.headerstart ++ header).length + 2 + 3 * cls.record.length,
          cls.headerstart ++ header, cls.record, sizes⟩) ∧
      bs.length = 8 + (cls.headerstart ++ header).length + 2 + 3 * cls.record.length +
        data.length * sizes.sum ∧
      (0 < sizes.sum →
        readAllModel cls isBase bs = some (pySorted recLt data)) := by
  obtain ⟨hdtype, hmagic, hrect, hclean, hcodes, hreclen, hdo, hLbound⟩ := W
  have hmo : 8 + (cls.headerstart ++ header).length < 65536 := by omega
  have h65536 : (256 : Nat) ^ 2 = 65536 := by norm_num
  have hperm := pySorted_perm recLt data
  have hrows_ne : pySorted recLt data ≠ [] := by
    intro hc
    have hl := hperm.length_eq
    rw [hc] at hl
    simp only [List.length_nil] at hl
    exact hne (List.length_eq_zero.mp hl.symm)
  have hmemr : ∀ r, r ∈ pySorted recLt data ↔ r ∈ data := fun r => hperm.mem_iff
  have hrect0 : ∀ r ∈ pySorted recLt data, r.length = cls.record.length :=
    fun r hr => hrect r ((hmemr r).mp hr)
  have hclean0 : ∀ r ∈ pySorted recLt data, ∀ j : Nat, j < r.length →
      ValueClean (cls.record.getD j 0) (r.getD j (Value.int 0)) :=
    fun r hr => hclean r ((hmemr r).mp hr)
  have hLb0 : ∀ r ∈ pySorted recLt data, ∀ j : Nat, j < r.length → ∀ dt L,
      stdDTYPE (cls.record.getD j 0) = some dt →
      lenOf dt (r.getD j (Value.int 0)) = some L → L < 65536 := by
    intro r hr j hj dt L hdt hL
    have hb := hLbound r ((hmemr r).mp hr) j hj
    rw [hdt] at hb
    simp only [Option.some_bind, hL, Option.getD_some] at hb
    exact hb
  have hcols : zipCols (Value.int 0) (pySorted recLt data) =
      (List.range cls.record.length).map
        (fun j => (pySorted recLt data).map (fun r => r.getD j (Value.int 0))) :=
    zipCols_rect _ cls.record.length _ hrows_ne hrect0
  obtain ⟨r0, rrest, hr0⟩ := List.exists_cons_of_ne_nil hrows_ne
  have hr0mem : r0 ∈ pySorted recLt data := by
    rw [hr0]
    exact List.mem_cons_self _ _
  have hcolfact : ∀ j : Nat, j < cls.record.length → ∃ dt f,
      stdDTYPE (cls.record.getD j 0) = some dt ∧ dt.lenRule = .fn f ∧
      (∀ v ∈ (pySorted recLt data).map (fun r => r.getD j (Value.int 0)),
        ValueClean (cls.record.getD j 0) v) ∧
      (∀ w, ValueClean (cls.record.getD j 0) w → ∃ L, f w = some L) ∧
      (∀ w L, f w = some L → lenOf dt w = some L) := by
    intro j hj
    have hcl0 : ValueClean (cls.record.getD j 0) (r0.getD j (Value.int 0)) :=
      hclean0 r0 hr0mem j (by rw [hrect0 r0 hr0mem]; exact hj)
    obtain ⟨dt, f, h1, h2, h3, h4⟩ := valueClean_dtype _ _ hcl0
    refine ⟨dt, f, h1, h2, ?_, h3, h4⟩
    intro v hv
    rw [List.mem_map] at hv
    obtain ⟨r, hrmem, hrv⟩ := hv
    rw [← hrv]
    exact hclean0 r hrmem j (by rw [hrect0 r hrmem]; exact hj)
  have hlenzip : (zipCols (Value.int 0) (pySorted recLt data)).length =
      cls.record.length := by
    rw [hcols, List.length_map, List.length_range]
  have hcolget : ∀ j : Nat, j < cls.record.length →
      (zipCols (Value.int 0) (pySorted recLt data)).getD j [] =
        (pySorted recLt data).map (fun r => r.getD j (Value.int 0)) := by
    intro j hj
    rw [hcols]
    exact range_map_getD_lt [] _ cls.record.length j hj
  have hcs_hyp : ∀ j : Nat, j < (zipCols (Value.int 0) (pySorted recLt data)).length →
      ∃ code dt s, cls.record[0 + j]? = some code ∧ cls.dtype code = some dt ∧
        computeSize dt ((zipCols (Value.int 0) (pySorted recLt data)).getD j []) =
          some s := by
    intro j hj
    rw [hlenzip] at hj
    obtain ⟨dt, f, h1, h2, hall, hsome, h4⟩ := hcolfact j hj
    have hcolne : (pySorted recLt data).map (fun r => r.getD j (Value.int 0)) ≠ [] := by
      simp [hrows_ne]
    obtain ⟨s, hs, -, -⟩ := computeSize_fn dt f h2 _ hcolne
      (fun v hv => hsome v (hall v hv))
    refine ⟨cls.record.getD j 0, dt, s, ?_, ?_, ?_⟩
    · rw [Nat.zero_add]
      exact getElem?_eq_getD _ 0 j hj
    · rw [hdtype]
      exact h1
    · rw [hcolget j hj]
      exact hs
  obtain ⟨sizes, hsz, hszlen, hszspec⟩ :=
    computeSizes_eq cls.dtype cls.record (zipCols (Value.int 0) (pySorted recLt data))
      0 hcs_hyp
  have hszlen2 : sizes.length = cls.record.length := by rw [hszlen, hlenzip]
  have hsize_spec : ∀ j : Nat, j < cls.record.length → ∀ dt,
      stdDTYPE (cls.record.getD j 0) = some dt →
      computeSize dt ((pySorted recLt data).map (fun r => r.getD j (Value.int 0))) =
        some (sizes.getD j 0) := by
    intro j hj dt hdt
    have hjz : j < (zipCols (Value.int 0) (pySorted recLt data)).length := by
      rw [hlenzip]
      exact hj
    have hspec := hszspec j hjz (cls.record.getD j 0) dt
      (by rw [Nat.zero_add]; exact getElem?_eq_getD _ 0 j hj)
      (by rw [hdtype]; exact hdt)
    rw [hcolget j hj] at hspec
    exact hspec
  have hsize_ub : ∀ j : Nat, j < cls.record.length → ∀ r ∈ pySorted recLt data,
      ∀ dt f, stdDTYPE (cls.record.getD j 0) = some dt → dt.lenRule = .fn f →
      ∀ L, f (r.getD j (Value.int 0)) = some L → L ≤ sizes.getD j 0 := by
    intro j hj r hr dt f hdt hfn L hL
    obtain ⟨dt2, f2, h1, h2, hall, hsome, h4⟩ := hcolfact j hj
    rw [hdt] at h1
    cases h1
    rw [hfn] at h2
    cases h2
    have hcolne : (pySorted recLt data).map (fun r => r.getD j (Value.int 0)) ≠ [] := by
      simp [hrows_ne]
    obtain ⟨s, hs, hub, -⟩ := computeSize_fn dt f hfn _ hcolne
      (fun v hv => hsome v (hall v hv))
    have hseq := hsize_spec j hj dt hdt
    rw [hs] at hseq
    cases hseq
    exact hub (r.getD j (Value.int 0))
      (List.mem_map.mpr ⟨r, hr, rfl⟩) L hL
  have hsize_lt : ∀ s ∈ sizes, s < 65536 := by
    intro s hs
    obtain ⟨j, hj, hsj⟩ := List.mem_iff_getElem.mp hs
    have hjk : j < cls.record.length := by rw [← hszlen2]; exact hj
    have hgd : sizes.getD j 0 = s := by
      rw [List.getD_eq_getElem?_getD, List.getElem?_eq_getElem hj, hsj]
      rfl
    obtain ⟨dt, f, h1, h2, hall, hsome, h4⟩ := hcolfact j hjk
    have hcolne : (pySorted recLt data).map (fun r => r.getD j (Value.int 0)) ≠ [] := by
      simp [hrows_ne]
    obtain ⟨s2, hs2, -, hlt⟩ := computeSize_fn dt f h2 _ hcolne
      (fun v hv => hsome v (hall v hv))
    have hseq := hsize_spec j hjk dt h1
    rw [hs2] at hseq
    cases hseq
    rw [← hgd]
    refine hlt 65536 (by norm_num) ?_
    intro v hv L hL
    rw [List.mem_map] at hv
    obtain ⟨r, hrmem, hrv⟩ := hv
    refine hLb0 r hrmem j (by rw [hrect0 r hrmem]; exact hjk) dt L h1 ?_
    rw [hrv]
    exact h4 v L hL
  have hdescs : descBytes cls.record sizes 0 =
      some (descConcat (cls.record.zip sizes)) := by
    have hde := descBytes_eq cls.record sizes 0 hcodes hsize_lt
      (by rw [Nat.zero_add, hszlen2])
    rw [List.drop_zero] at hde
    exact hde
  have hdcl : (descConcat (cls.record.zip sizes)).length = 3 * cls.record.length := by
    rw [descConcat_length, List.length_zip, hszlen2]
    omega
  have hrowok : ∀ r ∈ pySorted recLt data, RowOk cls.dtype cls.record sizes r 0 := by
    intro r hr j hj
    have hjk : j < cls.record.length := by rw [← hrect0 r hr]; exact hj
    have hcl : ValueClean (cls.record.getD j 0) (r.getD j (Value.int 0)) :=
      hclean0 r hr j hj
    obtain ⟨dt, f, h1, h2, h3, h4⟩ := valueClean_dtype _ _ hcl
    obtain ⟨L, hL⟩ := h3 _ hcl
    have hub : L ≤ sizes.getD j 0 := hsize_ub j hjk r hr dt f h1 h2 L hL
    obtain ⟨e, he1, he2, he3⟩ := encodesExact_std (cls.record.getD j 0) dt _ L
      (sizes.getD j 0) h1 hcl (h4 _ _ hL) hub
    rw [Nat.zero_add]
    exact ⟨dt, e, by rw [hdtype]; exact h1, he1, he2, he3⟩
  have henc : ∀ r ∈ pySorted recLt data,
      ∃ out, encodeRow cls.dtype cls.record sizes r 0 = some out ∧
        (out.length = sizes.sum ∧
          ∀ bs2 pos, readAt bs2 pos out.length = out →
            getDataAt cls.dtype (cls.record.zip sizes) bs2 pos =
              some (r, pos + out.length)) := by
    intro r hr
    obtain ⟨out, h1, h2, h3⟩ := encodeRow_ok cls.dtype cls.record sizes r 0
      (by rw [Nat.zero_add, hrect0 r hr]) (by rw [Nat.zero_add, hrect0 r hr, ← hszlen2])
      (hrowok r hr)
    have htk : (sizes.drop 0).take r.length = sizes := by
      rw [List.drop_zero, hrect0 r hr, ← hszlen2, List.take_length]
    refine ⟨out, h1, ?_, ?_⟩
    · rw [h2, htk]
    · intro bs2 pos hread
      have hg := h3 bs2 pos hread
      rw [List.drop_zero, htk] at hg
      exact hg
  obtain ⟨outs, houts, hfa, houtlen⟩ := mapM_exists _ _ (pySorted recLt data) henc
  have houtall : ∀ out ∈ outs, out.length = sizes.sum := by
    intro out hout
    obtain ⟨r, hr, hQ⟩ := forall2_mem_right hfa out hout
    exact hQ.1
  have hflatlen : outs.flatten.length = data.length * sizes.sum := by
    rw [flatten_length_const sizes.sum outs houtall, houtlen, hperm.length_eq]
  have hmoB : toBytesBE (cls.magic.length + 4 + (cls.headerstart ++ header).length) 2 =
      some (beBytes (8 + (cls.headerstart ++ header).length) 2) := by
    rw [hmagic]
    exact toBytesBE_eq _ _ (by omega)
  have hreclenB : toBytesBE cls.record.length 2 =
      some (beBytes cls.record.length 2) := toBytesBE_eq _ _ (by omega)
  have hdoB : toBytesBE (cls.magic.length + 4 + (cls.headerstart ++ header).length + 2 +
      (descConcat (cls.record.zip sizes)).length) 2 =
      some (beBytes (8 + (cls.headerstart ++ header).length + 2 +
        3 * cls.record.length) 2) := by
    rw [hmagic, hdcl]
    exact toBytesBE_eq _ _ (by omega)
  set bs := cls.magic ++ beBytes (8 + (cls.headerstart ++ header).length) 2 ++
    beBytes (8 + (cls.headerstart ++ header).length + 2 + 3 * cls.record.length) 2 ++
    (cls.headerstart ++ header) ++ beBytes cls.record.length 2 ++
    descConcat (cls.record.zip sizes) ++ outs.flatten with hbs
  have hwrite : writeModel cls data header = some bs := by
    rw [writeModel]
    simp only [hsz, hreclenB, hdescs, hmoB, hdoB, houts, Option.bind_some,
      Option.bind_eq_bind, Option.some_bind, Option.pure_def]
  have hbslen : bs.length = 8 + (cls.headerstart ++ header).length + 2 +
      3 * cls.record.length + data.length * sizes.sum := by
    rw [hbs]
    simp only [List.length_append, hmagic, beBytes_length, hdcl, hflatlen]
  have hparse : readHeaderModel cls isBase bs =
      ([], some ⟨8 + (cls.headerstart ++ header).length,
        8 + (cls.headerstart ++ header).length + 2 + 3 * cls.record.length,
        cls.headerstart ++ header, cls.record, sizes⟩) := by
    refine (readHeaderModel_layout cls isBase (cls.headerstart ++ header) cls.record
      sizes outs.flatten bs hbs hmagic hszlen2.symm hcodes hsize_lt hreclen hmo
      hdo).trans ?_
    rw [if_pos ?_]
    rw [hbslen]
    exact sizeCheck_exact ⟨8 + (cls.headerstart ++ header).length,
      8 + (cls.headerstart ++ header).length + 2 + 3 * cls.record.length,
      cls.headerstart ++ header, cls.record, sizes⟩ data.length
  have hreadall : 0 < sizes.sum →
      readAllModel cls isBase bs = some (pySorted recLt data) := by
    intro hposr
    rw [readAllModel.eq_def, hparse]
    show readRecords cls.dtype (cls.record.zip sizes) bs
      (8 + (cls.headerstart ++ header).length + 2 + 3 * cls.record.length)
      (attrLen ⟨8 + (cls.headerstart ++ header).length,
        8 + (cls.headerstart ++ header).length + 2 + 3 * cls.record.length,
        cls.headerstart ++ header, cls.record, sizes⟩ bs.length).toNat =
      some (pySorted recLt data)
    have hal : attrLen ⟨8 + (cls.headerstart ++ header).length,
        8 + (cls.headerstart ++ header).length + 2 + 3 * cls.record.length,
        cls.headerstart ++ header, cls.record, sizes⟩ bs.length =
        ((pySorted recLt data).length : Int) := by
      rw [hbslen, hperm.length_eq]
      exact attrLen_exact ⟨8 + (cls.headerstart ++ header).length,
        8 + (cls.headerstart ++ header).length + 2 + 3 * cls.record.length,
        cls.headerstart ++ header, cls.record, sizes⟩ data.length hposr
    rw [hal, Int.toNat_natCast]
    refine readRecords_go cls.dtype (cls.record.zip sizes) bs
      (pySorted recLt data) outs _ ?_ ?_
    · exact List.Forall₂.imp (fun a b h => h.2 bs) hfa
    · refine readAt_exact bs (cls.magic ++
        beBytes (8 + (cls.headerstart ++ header).length) 2 ++
        beBytes (8 + (cls.headerstart ++ header).length + 2 +
          3 * cls.record.length) 2 ++
        (cls.headerstart ++ header) ++ beBytes cls.record.length 2 ++
        descConcat (cls.record.zip sizes)) outs.flatten [] ?_ _ _ ?_ rfl
      · rw [List.append_nil]
      · simp only [List.length_append, hmagic, beBytes_length, hdcl]
  exact ⟨bs, sizes, hwrite, hszlen2, hsize_spec, hparse, hbslen, hreadall⟩

theorem mapM_map_some {α β γ : Type} (f : β → Option γ) (h : α → β) (g : α → γ)
    (hfg : ∀ a, f (h a) = some (g a)) :
    ∀ l : List α, (l.map h).mapM f = some (l.map g) := by
  intro l
  induction l with
  | nil => rfl
  | cons a as ih =>
    rw [List.map_cons, List.map_cons, List.mapM_cons, hfg a, ih]
    rfl

/-- The width `write` computes for an unsigned-integer column is the
maximum of `byte_length(v)` over the column. -/
theorem computeSize_int (ms : List Int) (hne : ms ≠ []) :
    computeSize dtypeInt (ms.map Value.int) =
      some ((ms.map (fun m => pyByteLength m.natAbs)).foldl Nat.max 0) := by
  obtain ⟨m0, ms2, rfl⟩ := List.exists_cons_of_ne_nil hne
  rw [computeSize]
  have hmm := mapM_map_some (fun v => match v with
      | Value.int i => some (pyByteLength i.natAbs)
      | Value.text _ => Option.none)
    Value.int (fun m => pyByteLength m.natAbs) (fun a => rfl) (m0 :: ms2)
  simp only [dtypeInt] at hmm ⊢
  rw [hmm, List.map_cons]

/-- The width `write` computes for a signed-integer column is the maximum
of `byte_length(2 * abs(v))` over the column. -/
theorem computeSize_signed (ms : List Int) (hne : ms ≠ []) :
    computeSize dtypeSignedInt (ms.map Value.int) =
      some ((ms.map (fun m => pyByteLength (2 * m.natAbs))).foldl Nat.max 0) := by
  obtain ⟨m0, ms2, rfl⟩ := List.exists_cons_of_ne_nil hne
  rw [computeSize]
  have hmm := mapM_map_some (fun v => match v with
      | Value.int i => some (pyByteLength (2 * i.natAbs))
      | Value.text _ => Option.none)
    Value.int (fun m => pyByteLength (2 * m.natAbs)) (fun a => rfl) (m0 :: ms2)
  simp only [dtypeSignedInt] at hmm ⊢
  rw [hmm, List.map_cons]

/-- The maximum of a list that contains `b` and is bounded by `b`. -/
theorem foldl_max_eq (l : List Nat) (b : Nat) (hmem : b ∈ l)
    (hub : ∀ x ∈ l, x ≤ b) : l.foldl Nat.max 0 = b := by
  have h1 : b ≤ l.foldl Nat.max 0 := foldl_max_ge l 0 b hmem
  have h2 : l.foldl Nat.max 0 < b + 1 := by
    refine foldl_max_lt (b + 1) l 0 (by omega) ?_
    intro x hx
    exact Nat.lt_succ_of_le (hub x hx)
  omega

theorem range_map_add_reverse {β : Type} (g : Int → β) :
    ∀ (c : Nat) (a : Int),
    ((List.range c).map (fun m : Nat => g (a + (m : Int)))).reverse =
      (List.range c).map (fun m : Nat => g (a + ((c : Int) - 1) - (m : Int))) := by
  intro c
  induction c with
  | zero => intro a; rfl
  | succ c ih =>
    intro a
    conv_rhs => rw [List.range_succ_eq_map, List.map_cons, List.map_map]
    rw [List.range_succ, List.map_append, List.reverse_append, List.map_cons,
      List.map_nil, List.reverse_cons, List.reverse_nil, List.nil_append,
      List.singleton_append, ih a]
    refine congrArg₂ List.cons ?_ ?_
    · congr 1
      push_cast
      ring
    · refine List.map_congr_left ?_
      intro m hm
      simp only [Function.comp_apply]
      congr 1
      push_cast
      ring

/-- Claim C3: `update` does not reproduce `write` on the combined records.
`update` passes `self.header` — the blob read from the file, which already
starts with `headerstart` — back to `write`, which prepends `headerstart`
again, so the updated file doubles the header prefix and differs from the
file a single `write` of the same records produces. -/
theorem claim_C3 :
    writeModel baseCls [[Value.text [97], Value.int 1]] [] =
      some [254, 254, 1, 1, 0, 24, 0, 32, 66, 105, 110, 97, 114, 121, 83,
        101, 97, 114, 99, 104, 70, 105, 108, 101, 0, 2, 0, 0, 1, 10, 0, 1,
        97, 1] ∧
    updateModel baseCls true [254, 254, 1, 1, 0, 24, 0, 32, 66, 105, 110,
        97, 114, 121, 83, 101, 97, 114, 99, 104, 70, 105, 108, 101, 0, 2,
        0, 0, 1, 10, 0, 1, 97, 1] [] =
      some [254, 254, 1, 1, 0, 40, 0, 48, 66, 105, 110, 97, 114, 121, 83,
        101, 97, 114, 99, 104, 70, 105, 108, 101, 66, 105, 110, 97, 114,
        121, 83, 101, 97, 114, 99, 104, 70, 105, 108, 101, 0, 2, 0, 0, 1,
        10, 0, 1, 97, 1] ∧
    writeModel baseCls ([[Value.text [97], Value.int 1]] ++ []) [] =
      some [254, 254, 1, 1, 0, 24, 0, 32, 66, 105, 110, 97, 114, 121, 83,
        101, 97, 114, 99, 104, 70, 105, 108, 101, 0, 2, 0, 0, 1, 10, 0, 1,
        97, 1] ∧
    ([254, 254, 1, 1, 0, 40, 0, 48, 66, 105, 110, 97, 114, 121, 83, 101,
        97, 114, 99, 104, 70, 105, 108, 101, 66, 105, 110, 97, 114, 121,
        83, 101, 97, 114, 99, 104, 70, 105, 108, 101, 0, 2, 0, 0, 1, 10,
        0, 1, 97, 1] : List Nat) ≠
      [254, 254, 1, 1, 0, 24, 0, 32, 66, 105, 110, 97, 114, 121, 83, 101,
        97, 114, 99, 104, 70, 105, 108, 101, 0, 2, 0, 0, 1, 10, 0, 1, 97,
        1] :=
  ⟨by rfl, by rfl, by rfl, by decide⟩

/-- Claim C5, counterexample: appending three garbage bytes to a freshly
written one-column utf-8 file breaks the size invariant — which is
reported as a warning, as claimed — but the next `read()` then crashes
(`none`): the extra complete record `[255, 255]` is not valid UTF-8. -/
theorem claim_C5_cex :
    writeModel ⟨[254, 254, 1, 1], [66, 105, 110, 97, 114, 121, 83, 101, 97,
        114, 99, 104, 70, 105, 108, 101], [1], stdDTYPE⟩
      [[Value.text [97, 98]]] [] =
      some [254, 254, 1, 1, 0, 24, 0, 29, 66, 105, 110, 97, 114, 121, 83,
        101, 97, 114, 99, 104, 70, 105, 108, 101, 0, 1, 1, 0, 2, 97, 98] ∧
    readHeaderModel ⟨[254, 254, 1, 1], [66, 105, 110, 97, 114, 121, 83, 101,
        97, 114, 99, 104, 70, 105, 108, 101], [1], stdDTYPE⟩ true
      [254, 254, 1, 1, 0, 24, 0, 29, 66, 105, 110, 97, 114, 121, 83, 101,
        97, 114, 99, 104, 70, 105, 108, 101, 0, 1, 1, 0, 2, 97, 98, 255,
        255, 0] =
      ([Warn.sizeInconsistent], some ⟨24, 29, [66, 105, 110, 97, 114, 121,
        83, 101, 97, 114, 99, 104, 70, 105, 108, 101], [1], [2]⟩) ∧
    readAllModel ⟨[254, 254, 1, 1], [66, 105, 110, 97, 114, 121, 83, 101,
        97, 114, 99, 104, 70, 105, 108, 101], [1], stdDTYPE⟩ true
      [254, 254, 1, 1, 0, 24, 0, 29, 66, 105, 110, 97, 114, 121, 83, 101,
        97, 114, 99, 104, 70, 105, 108, 101, 0, 1, 1, 0, 2, 97, 98, 255,
        255, 0] = Option.none :=
  ⟨by rfl, by rfl, by rfl⟩

/-- Claim C8, counterexample: opening an empty file is not "a warning after
which the read proceeds": the base reader's `magic[0]` raises `IndexError`
(`none`), with no warning issued. -/
theorem claim_C8_cex :
    readHeaderModel baseCls true [] = ([], Option.none) := by decide

/-- Claim C10, counterexample: for `n = 5` the probe reads only 4 bytes, so
a 5-byte file whose first four bytes match returns `True` although its first
five bytes differ from the magic's first five. -/
theorem claim_C10_cex :
    checkMagicCls baseCls (some [254, 254, 1, 1, 0]) 5 = true ∧
    [254, 254, 1, 1, 0].take 5 ≠ baseCls.magic.take 5 :=
  ⟨by decide, by decide⟩

/-- Claim C10 (amended): the class-level probe `check_magic(fname, n)`
returns `False` when the file cannot be opened, and otherwise compares the
first `min n 4` bytes of the file (it only reads 4) against `magic[:n]`;
for `n ≤ 4` — in particular the default `n = 1` — that is exactly the
claimed first-`n`-bytes comparison. -/
theorem claim_C10 :
    (∀ (cls : ClsConfig) (n : Nat), checkMagicCls cls Option.none n = false) ∧
    (∀ (cls : ClsConfig) (bs : List Nat) (n : Nat),
      checkMagicCls cls (some bs) n = (bs.take (min n 4) == cls.magic.take n)) ∧
    (∀ (cls : ClsConfig) (bs : List Nat) (n : Nat), n ≤ 4 →
      checkMagicCls cls (some bs) n = (bs.take n == cls.magic.take n)) := by
  refine ⟨fun cls n => rfl, ?_, ?_⟩
  · intro cls bs n
    rw [checkMagicCls, List.take_take]
  · intro cls bs n hn
    rw [checkMagicCls, List.take_take, min_eq_left hn]

/-- Claim C8 (amended): on open, the base reader compares only the first
magic byte — raising `IndexError` on an empty file, the case the claim
misses — and a derived reader compares the first two bytes and never
raises; on any well-formed header layout a magic mismatch only prepends
the `wrongMagic` warning and parsing proceeds to the same header. -/
theorem claim_C8 :
    (∀ (cls : ClsConfig) (bs : List Nat), bs ≠ [] → cls.magic ≠ [] →
      checkMagicInst cls true bs = some (bs.headD 0 == cls.magic.headD 0)) ∧
    (∀ (cls : ClsConfig) (bs : List Nat),
      checkMagicInst cls false bs = some ((bs.take 4).take 2 == cls.magic.take 2)) ∧
    (∀ (cls : ClsConfig) (isBase ok : Bool) (m4 blob codes sizes body bs : List Nat),
      bs = m4 ++ beBytes (8 + blob.length) 2 ++
        beBytes (8 + blob.length + 2 + 3 * codes.length) 2 ++ blob ++
        beBytes codes.length 2 ++ descConcat (codes.zip sizes) ++ body →
      m4.length = 4 →
      checkMagicInst cls isBase bs = some ok →
      cls.magic.length = 4 →
      codes.length = sizes.length →
      (∀ c ∈ codes, c < 256) →
      (∀ x ∈ sizes, x < 65536) →
      codes.length < 65536 →
      8 + blob.length < 65536 →
      8 + blob.length + 2 + 3 * codes.length < 65536 →
      readHeaderModel cls isBase bs =
        ((if ok then [] else [Warn.wrongMagic]) ++
          (if sizeCheck ⟨8 + blob.length, 8 + blob.length + 2 + 3 * codes.length,
            blob, codes, sizes⟩ bs.length then [] else [Warn.sizeInconsistent]),
          some ⟨8 + blob.length, 8 + blob.length + 2 + 3 * codes.length,
            blob, codes, sizes⟩)) := by
  refine ⟨?_, fun cls bs => rfl, ?_⟩
  · intro cls bs hbs hm
    obtain ⟨b, bs2, rfl⟩ := List.exists_cons_of_ne_nil hbs
    obtain ⟨a, ms2, hmagic⟩ := List.exists_cons_of_ne_nil hm
    rw [checkMagicInst, hmagic]
    rfl
  · intro cls isBase ok m4 blob codes sizes body bs hbs hm4 hok hmagic hlen
      hcodes hsizes hreclen hmo hdo
    exact readHeaderModel_layoutGen cls isBase ok m4 blob codes sizes body bs
      hbs hm4 hok hmagic hlen hcodes hsizes hreclen hmo hdo

/-- Claim C5 (amended): every successful `write` produces a file satisfying
`dataoffset + len * recsize == totalsize` exactly, and on a well-formed
header layout the size warning is issued precisely when the invariant
fails; reading a violating file does not always proceed without crashing
(see the counterexample). -/
theorem claim_C5 :
    (∀ (cls : ClsConfig) (data : List Rec) (header : List Nat) (isBase : Bool),
      WriteOk cls data header → data ≠ [] →
      ∃ (bs : List Nat) (info : HeaderInfo),
        writeModel cls data header = some bs ∧
        readHeaderModel cls isBase bs = ([], some info) ∧
        sizeCheck info bs.length = true) ∧
    (∀ (cls : ClsConfig) (isBase : Bool) (blob codes sizes body bs : List Nat),
      bs = cls.magic ++ beBytes (8 + blob.length) 2 ++
        beBytes (8 + blob.length + 2 + 3 * codes.length) 2 ++ blob ++
        beBytes codes.length 2 ++ descConcat (codes.zip sizes) ++ body →
      cls.magic.length = 4 →
      codes.length = sizes.length →
      (∀ c ∈ codes, c < 256) →
      (∀ x ∈ sizes, x < 65536) →
      codes.length < 65536 →
      8 + blob.length < 65536 →
      8 + blob.length + 2 + 3 * codes.length < 65536 →
      ((readHeaderModel cls isBase bs).1 = [] ↔
        sizeCheck ⟨8 + blob.length, 8 + blob.length + 2 + 3 * codes.length,
          blob, codes, sizes⟩ bs.length = true)) := by
  constructor
  · intro cls data header isBase W hne
    obtain ⟨bs, sizes, hw, hlen, hspec, hparse, hbslen, hread⟩ :=
      write_roundtrip cls data header isBase W hne
    refine ⟨bs, _, hw, hparse, ?_⟩
    rw [hbslen]
    exact sizeCheck_exact ⟨8 + (cls.headerstart ++ header).length,
      8 + (cls.headerstart ++ header).length + 2 + 3 * cls.record.length,
      cls.headerstart ++ header, cls.record, sizes⟩ data.length
  · intro cls isBase blob codes sizes body bs hbs hmagic hlen hcodes hsizes
      hreclen hmo hdo
    rw [readHeaderModel_layout cls isBase blob codes sizes body bs hbs hmagic
      hlen hcodes hsizes hreclen hmo hdo]
    cases hsc : sizeCheck ⟨8 + blob.length, 8 + blob.length + 2 + 3 * codes.length,
        blob, codes, sizes⟩ bs.length with
    | true => simp
    | false => simp

/-- Claim C6: the sorted writer sizes an integer column at the maximum of
`byte_length(v)` (unsigned) or `byte_length(2*abs(v))` (signed) over the
column; signed columns spanning −127..127 get 1-byte fields, including 128
forces 2 bytes, unsigned 0..255 gets 1 byte and 0..256 gets 2. -/
theorem claim_C6 :
    (∀ ms : List Int, ms ≠ [] →
      computeSize dtypeInt (ms.map Value.int) =
        some ((ms.map (fun m => pyByteLength m.natAbs)).foldl Nat.max 0)) ∧
    (∀ ms : List Int, ms ≠ [] →
      computeSize dtypeSignedInt (ms.map Value.int) =
        some ((ms.map (fun m => pyByteLength (2 * m.natAbs))).foldl Nat.max 0)) ∧
    (∀ ms : List Int, (127 : Int) ∈ ms → (∀ m ∈ ms, -127 ≤ m ∧ m ≤ 127) →
      computeSize dtypeSignedInt (ms.map Value.int) = some 1) ∧
    (∀ ms : List Int, (128 : Int) ∈ ms → (∀ m ∈ ms, -128 ≤ m ∧ m ≤ 128) →
      computeSize dtypeSignedInt (ms.map Value.int) = some 2) ∧
    (∀ ms : List Int, (255 : Int) ∈ ms → (∀ m ∈ ms, 0 ≤ m ∧ m ≤ 255) →
      computeSize dtypeInt (ms.map Value.int) = some 1) ∧
    (∀ ms : List Int, (256 : Int) ∈ ms → (∀ m ∈ ms, 0 ≤ m ∧ m ≤ 256) →
      computeSize dtypeInt (ms.map Value.int) = some 2) := by
  have h2561 : (256 : Nat) ^ 1 = 256 := by norm_num
  have h2562 : (256 : Nat) ^ 2 = 65536 := by norm_num
  refine ⟨fun ms hne => computeSize_int ms hne,
    fun ms hne => computeSize_signed ms hne, ?_, ?_, ?_, ?_⟩
  · intro ms hmem hall
    have hne : ms ≠ [] := by rintro rfl; cases hmem
    rw [computeSize_signed ms hne]
    congr 1
    refine foldl_max_eq _ 1 (List.mem_map.mpr ⟨127, hmem, by rfl⟩) ?_
    intro x hx
    obtain ⟨m, hm, rfl⟩ := List.mem_map.mp hx
    obtain ⟨h1, h2⟩ := hall m hm
    rw [pyByteLength_le_iff, h2561]
    omega
  · intro ms hmem hall
    have hne : ms ≠ [] := by rintro rfl; cases hmem
    rw [computeSize_signed ms hne]
    congr 1
    refine foldl_max_eq _ 2 (List.mem_map.mpr ⟨128, hmem, by rfl⟩) ?_
    intro x hx
    obtain ⟨m, hm, rfl⟩ := List.mem_map.mp hx
    obtain ⟨h1, h2⟩ := hall m hm
    rw [pyByteLength_le_iff, h2562]
    omega
  · intro ms hmem hall
    have hne : ms ≠ [] := by rintro rfl; cases hmem
    rw [computeSize_int ms hne]
    congr 1
    refine foldl_max_eq _ 1 (List.mem_map.mpr ⟨255, hmem, by rfl⟩) ?_
    intro x hx
    obtain ⟨m, hm, rfl⟩ := List.mem_map.mp hx
    obtain ⟨h1, h2⟩ := hall m hm
    rw [pyByteLength_le_iff, h2561]
    omega
  · intro ms hmem hall
    have hne : ms ≠ [] := by rintro rfl; cases hmem
    rw [computeSize_int ms hne]
    congr 1
    refine foldl_max_eq _ 2 (List.mem_map.mpr ⟨256, hmem, by rfl⟩) ?_
    intro x hx
    obtain ⟨m, hm, rfl⟩ := List.mem_map.mp hx
    obtain ⟨h1, h2⟩ := hall m hm
    rw [pyByteLength_le_iff, h2562]
    omega

/-- Claim C9: the text codecs pad to the field width with spaces but never
truncate — `encode(v, width)` returns exactly `max width len(encoded)`
bytes — and the sequential writer performs no width validation: writing an
over-width text field succeeds and appends more than the stride to the
file. -/
theorem claim_C9 :
    (∀ (cps : List Nat) (s : Nat), cps.all (fun c => decide (c < 256)) = true →
      ∃ e, dtypeAscii.encode (Value.text cps) s = some e ∧
        e.length = max s cps.length ∧ (s < cps.length → s < e.length)) ∧
    (∀ (cps enc : List Nat) (s : Nat), utf8Encode cps = some enc →
      ∃ e, dtypeUtf8.encode (Value.text cps) s = some e ∧
        e.length = max s enc.length ∧ (s < enc.length → s < e.length)) ∧
    (∀ (cls : ClsConfig) (s : Nat) (cps hdr : List Nat),
      cls.dtype = stdDTYPE → cls.record = [0] → cls.magic.length = 4 →
      cps.all (fun c => decide (c < 256)) = true → s < cps.length →
      s < 65536 → 8 + (cls.headerstart ++ hdr).length + 5 < 65536 →
      ∃ bs : List Nat,
        seqWriteModel cls [s] [[Value.text cps]] hdr = some bs ∧
        bs.length = 8 + (cls.headerstart ++ hdr).length + 5 + cps.length ∧
        8 + (cls.headerstart ++ hdr).length + 5 + s < bs.length) := by
  refine ⟨?_, ?_, ?_⟩
  · intro cps s hall
    refine ⟨cps ++ List.replicate (s - cps.length) 32, ?_, ?_, ?_⟩
    · simp only [dtypeAscii]
      rw [if_pos hall]
    · rw [List.length_append, List.length_replicate]
      omega
    · intro h
      rw [List.length_append, List.length_replicate]
      omega
  · intro cps enc s henc
    refine ⟨enc ++ List.replicate (s - enc.length) 32, ?_, ?_, ?_⟩
    · simp only [dtypeUtf8, henc]
      rfl
    · rw [List.length_append, List.length_replicate]
      omega
    · intro h
      rw [List.length_append, List.length_replicate]
      omega
  · intro cls s cps hdr hdtype hrec hmagic hall hover hs hdo
    have hdescs : descBytes cls.record [s] 0 =
        some (descConcat (cls.record.zip [s])) := by
      refine descBytes_eq cls.record [s] 0 ?_ ?_ ?_
      · rw [hrec]
        intro c hc
        simp only [List.mem_singleton] at hc
        omega
      · intro x hx
        simp only [List.mem_singleton] at hx
        omega
      · rw [hrec]
        simp
    have hdcl : (descConcat (cls.record.zip [s])).length = 3 := by
      rw [descConcat_length, List.length_zip, hrec]
      rfl
    have hsub : s - cps.length = 0 := by omega
    have henc1 : encodeRow cls.dtype cls.record [s] [Value.text cps] 0 =
        some cps := by
      rw [hdtype, hrec, encodeRow]
      simp [encodeRow, stdDTYPE, dtypeAscii, hall, hsub]
      intro x hx
      simpa using List.all_eq_true.mp hall x hx
    have hmapM : [[Value.text cps]].mapM
        (fun d => encodeRow cls.dtype cls.record [s] d 0) = some [cps] := by
      rw [List.mapM_cons, henc1]
      rfl
    have hreclB : toBytesBE cls.record.length 2 = some (beBytes 1 2) := by
      rw [hrec]
      exact toBytesBE_eq 1 2 (by norm_num)
    have hmoB : toBytesBE (cls.magic.length + 4 + (cls.headerstart ++ hdr).length) 2 =
        some (beBytes (8 + (cls.headerstart ++ hdr).length) 2) := by
      rw [hmagic]
      exact toBytesBE_eq _ _ (by omega)
    have harg : cls.magic.length + 4 + (cls.headerstart ++ hdr).length + 2 +
        (descConcat (cls.record.zip [s])).length =
        8 + (cls.headerstart ++ hdr).length + 5 := by
      rw [hmagic, hdcl]
    have hdoB : toBytesBE (cls.magic.length + 4 + (cls.headerstart ++ hdr).length + 2 +
        (descConcat (cls.record.zip [s])).length) 2 =
        some (beBytes (8 + (cls.headerstart ++ hdr).length + 5) 2) := by
      rw [harg]
      exact toBytesBE_eq _ _ (by omega)
    refine ⟨cls.magic ++ beBytes (8 + (cls.headerstart ++ hdr).length) 2 ++
      beBytes (8 + (cls.headerstart ++ hdr).length + 5) 2 ++
      (cls.headerstart ++ hdr) ++ beBytes 1 2 ++
      descConcat (cls.record.zip [s]) ++ [cps].flatten, ?_, ?_, ?_⟩
    · rw [seqWriteModel]
      simp only [hreclB, hdescs, hmoB, hdoB, hmapM, Option.bind_some,
        Option.bind_eq_bind, Option.some_bind, Option.pure_def]
    · simp only [List.length_append, hmagic, beBytes_length, hdcl,
        List.flatten, List.append_nil]
    · simp only [List.length_append, hmagic, beBytes_length, hdcl,
        List.flatten, List.append_nil]
      omega

/-- Claim C7: `read(slice)` resolves the slice with `slice.indices(len)`
(step 0 raising there), rejects every stride other than `1` and `-1` with
`ValueError` before touching the file, realizes strides `1` and `-1`
exactly as ordinary extended slicing of the record sequence — half-open
bounds, reverse order for `-1` — and a non-`None`, non-`int`, non-`slice`
index is rejected as well. -/
theorem claim_C7 :
    (∀ (v : SeqView) (s : PySlice),
      PySlice.indices s v.n = Option.none → readSeqModel v (.slice s) = .err) ∧
    (∀ (v : SeqView) (s : PySlice) (j k st : Int),
      PySlice.indices s v.n = some (j, k, st) →
      (st.natAbs ≠ 1 → readSeqModel v (.slice s) = .err) ∧
      (st.natAbs = 1 → ∃ idxs, sliceSpec s v.n = some idxs ∧
        readSeqModel v (.slice s) = .many (idxs.map v.getData))) ∧
    (∀ v : SeqView, readSeqModel v .other = .err) := by
  refine ⟨?_, ?_, fun v => rfl⟩
  · intro v s hidx
    simp only [readSeqModel, hidx]
  · intro v s j k st hidx
    constructor
    · intro hab
      simp only [readSeqModel, hidx]
      rw [if_pos hab]
    · intro hab
      have hst : st = 1 ∨ st = -1 := by omega
      cases hst with
      | inl h1 =>
        subst h1
        refine ⟨(List.range (k - j).toNat).map (fun m : Nat => j + (m : Int) * 1),
          ?_, ?_⟩
        · simp only [sliceSpec, hidx]
          rw [if_pos (by norm_num : (0 : Int) < 1)]
          rw [show k - j + 1 - 1 = k - j from by ring, Int.fdiv_one]
        · simp only [readSeqModel, hidx]
          rw [if_neg (by decide), if_neg (by decide)]
          rw [intRange, List.map_map, List.map_map]
          refine congrArg SeqResult.many (List.map_congr_left ?_)
          intro m hm
          simp only [Function.comp_apply]
          congr 1
          ring
      | inr h1 =>
        subst h1
        refine ⟨(List.range (j - k).toNat).map (fun m : Nat => j + (m : Int) * (-1)),
          ?_, ?_⟩
        · simp only [sliceSpec, hidx]
          rw [if_neg (by norm_num : ¬(0 : Int) < -1)]
          rw [show j - k - (-1) - 1 = j - k from by ring,
            show -(-1 : Int) = 1 from by norm_num, Int.fdiv_one]
        · simp only [readSeqModel, hidx]
          rw [if_neg (by decide)]
          rw [if_pos trivial]
          rw [intRange, show j + 1 - (k + 1) = j - k from by ring,
            List.map_map, List.map_map]
          simp only [Function.comp_def]
          rw [range_map_add_reverse v.getData ((j - k).toNat) (k + 1)]
          refine congrArg SeqResult.many (List.map_congr_left ?_)
          intro m hm
          rw [List.mem_range] at hm
          congr 1
          omega

/-- Claim C1: over keys ascending on the record range, `search(key, True)`
returns the smallest record index whose key equals `key` and
`search(key, False)` the largest, whenever some record carries the key;
and `_binarysearch` with `left=True` computes the lower bound — every key
below the result is `< x`, none at or above it is — while `left=False`
returns the upper bound minus one. -/
theorem claim_C1 :
    (∀ (K : Type) (lt : K → K → Bool) (f : Nat → K) (x : K) (n : Nat),
      (∀ i j : Nat, i ≤ j → j < n → lt (f j) x = true → lt (f i) x = true) →
      ∃ r : Nat, binarysearch lt f x n true = (r : Int) ∧ r ≤ n ∧
        (∀ j : Nat, j < r → lt (f j) x = true) ∧
        (∀ j : Nat, r ≤ j → j < n → lt (f j) x = false)) ∧
    (∀ (K : Type) (lt : K → K → Bool) (f : Nat → K) (x : K) (n : Nat),
      (∀ i j : Nat, i ≤ j → j < n → lt x (f i) = true → lt x (f j) = true) →
      ∃ r : Nat, binarysearch lt f x n false = (r : Int) - 1 ∧ r ≤ n ∧
        (∀ j : Nat, j < r → lt x (f j) = false) ∧
        (∀ j : Nat, r ≤ j → j < n → lt x (f j) = true)) ∧
    (∀ (v : SortedView) (key : Value), KeysSorted v →
      ∀ i0 : Nat, i0 < v.n → v.getKey (i0 : Int) = key →
      (∃ r : Nat, searchModel v key true = some (r : Int) ∧ r < v.n ∧
        v.getKey (r : Int) = key ∧
        ∀ j : Nat, j < r → v.getKey (j : Int) ≠ key) ∧
      (∃ r : Nat, searchModel v key false = some (r : Int) ∧ r < v.n ∧
        v.getKey (r : Int) = key ∧
        ∀ j : Nat, r < j → j < v.n → v.getKey (j : Int) ≠ key)) :=
  ⟨fun K lt f x n hmono => binarysearch_left_eq lt f x n hmono,
   fun K lt f x n hmono => binarysearch_right_eq lt f x n hmono,
   fun v key hsort i0 hi0 hkey =>
     ⟨searchModel_first v key hsort i0 hi0 hkey,
      searchModel_last v key hsort i0 hi0 hkey⟩⟩

/-- A concrete `WriteOk` instance for witnesses: two clean records under
the base-class schema. -/
theorem wOk_base : WriteOk baseCls
    [[Value.text [98], Value.int 5], [Value.text [97], Value.int 3]] [] := by
  refine ⟨rfl, rfl, by decide, ?_, by decide, by decide, by decide, by decide⟩
  intro r hr j hj
  fin_cases hr <;> simp only [List.length_cons, List.length_nil] at hj <;>
    interval_cases j
  · exact ⟨by decide, by decide⟩
  · exact (by norm_num : (0 : Int) ≤ 5)
  · exact ⟨by decide, by decide⟩
  · exact (by norm_num : (0 : Int) ≤ 3)

/-- Witness for C1 on a concrete sorted view with keys `1, 2, 2`. -/
theorem claim_C1_witness :
    (∃ r : Nat, searchModel ⟨3, fun i => if i ≤ 0 then Value.int 1 else Value.int 2,
        fun i => [Value.int i]⟩ (Value.int 2) true = some (r : Int) ∧ r < 3 ∧
      SortedView.getKey ⟨3, fun i => if i ≤ 0 then Value.int 1 else Value.int 2,
        fun i => [Value.int i]⟩ (r : Int) = Value.int 2 ∧
      ∀ j : Nat, j < r →
        SortedView.getKey ⟨3, fun i => if i ≤ 0 then Value.int 1 else Value.int 2,
          fun i => [Value.int i]⟩ (j : Int) ≠ Value.int 2) ∧
    (∃ r : Nat, searchModel ⟨3, fun i => if i ≤ 0 then Value.int 1 else Value.int 2,
        fun i => [Value.int i]⟩ (Value.int 2) false = some (r : Int) ∧ r < 3 ∧
      SortedView.getKey ⟨3, fun i => if i ≤ 0 then Value.int 1 else Value.int 2,
        fun i => [Value.int i]⟩ (r : Int) = Value.int 2 ∧
      ∀ j : Nat, r < j → j < 3 →
        SortedView.getKey ⟨3, fun i => if i ≤ 0 then Value.int 1 else Value.int 2,
          fun i => [Value.int i]⟩ (j : Int) ≠ Value.int 2) :=
  claim_C1.2.2 ⟨3, fun i => if i ≤ 0 then Value.int 1 else Value.int 2,
      fun i => [Value.int i]⟩ (Value.int 2)
    (by
      intro i j hij hj
      have hj3 : j < 3 := hj
      interval_cases j <;> interval_cases i <;> decide)
    1 (by norm_num) (by decide)

/-- Witness for C5: the written two-record file passes the size check, and
on a concrete well-formed layout the absence of the warning is equivalent
to the size check. -/
theorem claim_C5_witness :
    (∃ (bs : List Nat) (info : HeaderInfo),
      writeModel baseCls
        [[Value.text [98], Value.int 5], [Value.text [97], Value.int 3]] [] =
        some bs ∧
      readHeaderModel baseCls true bs = ([], some info) ∧
      sizeCheck info bs.length = true) ∧
    ((readHeaderModel baseCls true
        [254, 254, 1, 1, 0, 8, 0, 13, 0, 1, 0, 0, 1, 97]).1 = [] ↔
      sizeCheck ⟨8, 13, [], [0], [1]⟩
        ([254, 254, 1, 1, 0, 8, 0, 13, 0, 1, 0, 0, 1, 97] : List Nat).length =
        true) :=
  ⟨claim_C5.1 baseCls
      [[Value.text [98], Value.int 5], [Value.text [97], Value.int 3]] [] true
      wOk_base (by decide),
   claim_C5.2 baseCls true [] [0] [1] [97]
      [254, 254, 1, 1, 0, 8, 0, 13, 0, 1, 0, 0, 1, 97]
      (by decide) rfl rfl (by decide) (by decide) (by decide) (by decide)
      (by decide)⟩

/-- Witness for C6 at the four claimed ranges. -/
theorem claim_C6_witness :
    computeSize dtypeSignedInt ([(-127 : Int), 0, 127].map Value.int) = some 1 ∧
    computeSize dtypeSignedInt ([(-128 : Int), 0, 128].map Value.int) = some 2 ∧
    computeSize dtypeInt ([(0 : Int), 255].map Value.int) = some 1 ∧
    computeSize dtypeInt ([(0 : Int), 256].map Value.int) = some 2 :=
  ⟨claim_C6.2.2.1 [-127, 0, 127] (by decide) (by decide),
   claim_C6.2.2.2.1 [-128, 0, 128] (by decide) (by decide),
   claim_C6.2.2.2.2.1 [0, 255] (by decide) (by decide),
   claim_C6.2.2.2.2.2 [0, 256] (by decide) (by decide)⟩

/-- Witness for C7: the full-reverse slice `[::-1]` of a three-record file
equals the reference slicing. -/
theorem claim_C7_witness :
    ∃ idxs, sliceSpec ⟨Option.none, Option.none, some (-1)⟩ 3 = some idxs ∧
      readSeqModel ⟨3, fun i => [Value.int i]⟩
        (SeqIndex.slice ⟨Option.none, Option.none, some (-1)⟩) =
        SeqResult.many (idxs.map (fun i => [Value.int i])) :=
  (claim_C7.2.1 ⟨3, fun i => [Value.int i]⟩
      ⟨Option.none, Option.none, some (-1)⟩ 2 (-1) (-1) (by decide)).2
    (by decide)

/-- Witness for C8: the base reader's single-byte comparison on a nonempty
file, and a wrong-magic layout parsing through with only the warning. -/
theorem claim_C8_witness :
    checkMagicInst baseCls true [1, 2, 3] =
      some (([1, 2, 3] : List Nat).headD 0 == baseCls.magic.headD 0) ∧
    readHeaderModel baseCls true [9, 9, 9, 9, 0, 8, 0, 13, 0, 1, 0, 0, 1, 97] =
      ([Warn.wrongMagic], some ⟨8, 13, [], [0], [1]⟩) :=
  ⟨claim_C8.1 baseCls [1, 2, 3] (by decide) (by decide),
   claim_C8.2.2 baseCls true false [9, 9, 9, 9] [] [0] [1] [97]
     [9, 9, 9, 9, 0, 8, 0, 13, 0, 1, 0, 0, 1, 97]
     (by decide) rfl (by decide) rfl rfl (by decide) (by decide) (by decide)
     (by decide) (by decide)⟩

/-- Witness for C9: padding on an under-width field, and a sequential
write of an over-width three-byte text value into a one-byte field. -/
theorem claim_C9_witness :
    (∃ e, dtypeAscii.encode (Value.text [97]) 3 = some e ∧
      e.length = max 3 1 ∧ (3 < 1 → 3 < e.length)) ∧
    (∃ bs : List Nat,
      seqWriteModel ⟨[254, 254, 1, 1], [], [0], stdDTYPE⟩ [1]
        [[Value.text [97, 98, 99]]] [] = some bs ∧
      bs.length = 16 ∧ 14 < bs.length) :=
  ⟨claim_C9.1 [97] 3 (by decide),
   claim_C9.2.2 ⟨[254, 254, 1, 1], [], [0], stdDTYPE⟩ 1 [97, 98, 99] []
     rfl rfl rfl (by decide) (by decide) (by decide) (by decide)⟩

/-- Witness for C10: the default single-byte probe compares exactly the
first byte. -/
theorem claim_C10_witness :
    checkMagicCls baseCls (some [254, 9, 9, 9, 9]) 1 =
      (([254, 9, 9, 9, 9] : List Nat).take 1 == baseCls.magic.take 1) :=
  claim_C10.2.2 baseCls [254, 9, 9, 9, 9] 1 (by norm_num)

end BSF








